import Mathlib

/-!
# proxylist: the fetch-and-aggregate pipeline, country filter and sort

A shallow embedding of `pkg/proxylist/proxy.go` and `pkg/proxylist/sorting.go`.

* Go `string` is `String`; `<` on strings is lexicographic (code-point order, which on
  well-formed UTF-8 is Go's byte order).
* Go `error` is `GoError := Option String`: `none` is `nil`, `some msg` is a non-nil
  error whose `Error()` is `msg` (which may be empty, as in `errors.New("")`).
* Go `int`, `int64` are `Int`. The only arithmetic on them is `p.Success++`, which counts
  elements of a slice and so stays far below `2^63`.
* Go `float64` is `Float64` below: sign, mantissa and binary exponent, with `±Inf` and `NaN`.
* The two channels of `Execute` are the lists of values the `Fetch` goroutines send on
  them, each in its own order of arrival.
-/

namespace proxylist

/-! ## float64, as far as `Sort` needs it: `x*100` and `%.2f` -/

/-- A `float64`: `finite neg m e` is `(-1)^neg * m * 2^e`. -/
inductive Float64 where
  | finite (neg : Bool) (mant : Nat) (exp : Int)
  | inf (neg : Bool)
  | nan
deriving DecidableEq, Repr

/-- The zero value of a `float64` field. -/
def Float64.zero : Float64 := .finite false 0 0

instance : Inhabited Float64 := ⟨Float64.zero⟩

/-- Halve `m` until it is `0`, counting the steps (at most `fuel` of them). -/
def bitLenLoop : Nat → Nat → Nat
  | 0, _ => 0
  | fuel + 1, m => if m = 0 then 0 else bitLenLoop fuel (m / 2) + 1

/-- Number of bits of `m` (`0` for `0`), Go's `bits.Len`. -/
def bitLen (m : Nat) : Nat := bitLenLoop m m

/-- Divide `m` by `2^s` rounding to nearest, ties to even. -/
def shiftRoundEven (m s : Nat) : Nat :=
  let q := m / 2 ^ s
  let r := m % 2 ^ s
  if 2 * r > 2 ^ s then q + 1
  else if 2 * r = 2 ^ s ∧ q % 2 = 1 then q + 1
  else q

/-- Round the real number `(-1)^neg * m * 2^e` to the nearest `float64`
(53-bit mantissa, least exponent `-1074`, ties to even, overflow to infinity). -/
def roundFloat64 (neg : Bool) (m : Nat) (e : Int) : Float64 :=
  let e1 : Int := max (e + (bitLen m : Int) - 53) (-1074)
  if e1 ≤ e then
    if bitLen m + e > 1024 ∧ m ≠ 0 then .inf neg else .finite neg m e
  else
    let q := shiftRoundEven m (e1 - e).toNat
    if bitLen q + e1 > 1024 then .inf neg else .finite neg q e1

/-- The product `x * 100` of Go, on `float64`. -/
def Float64.mul100 : Float64 → Float64
  | .finite neg m e => roundFloat64 neg (m * 100) e
  | .inf neg => .inf neg
  | .nan => .nan

/-- Two decimal digits of `k < 100`. -/
def twoDigits (k : Nat) : String :=
  if k < 10 then "0" ++ toString k else toString k

/-- The integer nearest to `m * 2^e * 100`, ties to even. -/
def scaledHundredths (m : Nat) (e : Int) : Nat :=
  if 0 ≤ e then m * 100 * 2 ^ e.toNat else shiftRoundEven (m * 100) (-e).toNat

/-- The text of `fmt.Sprintf("%.2f", x)`. -/
def Float64.format2 : Float64 → String
  | .finite neg m e =>
    let h := scaledHundredths m e
    (if neg then "-" else "") ++ toString (h / 100) ++ "." ++ twoDigits (h % 100)
  | .inf neg => if neg then "-Inf" else "+Inf"
  | .nan => "NaN"

/-! ## Data model -/

/-- A Go `error` value: `none` is `nil`, `some msg` a non-nil error with message `msg`. -/
abbrev GoError := Option String

/-- Modelled from the spec: the `Settings` record (the spec's ProxyDescriptor), whose type
declaration is not among the sources. The fields are those `proxy.go` and `sorting.go`
read or write, with the types their uses there require. -/
structure Settings where
  Filter : String := ""
  StatusCode : Int := 0
  StatusMessage : String := ""
  Get : Bool := false
  Post : Bool := false
  Cookies : Bool := false
  Referer : Bool := false
  UserAgent : Bool := false
  AnonymityLevel : Int := 0
  Protocol : String := ""
  Port : String := ""
  Country : String := ""
  TsChecked : Int := 0
  Curl : String := ""
  Speed : Float64 := Float64.zero
deriving DecidableEq, Repr

/-- The composite literal `Settings{}`: every field at its zero value. -/
def Settings.empty : Settings := {}

instance : Inhabited Settings := ⟨Settings.empty⟩

/-- Proxy represents the core of the library. -/
structure Proxy where
  Success : Int
  Service : String
  Countries : List String
  Failure : List GoError
  Entries : List Settings
deriving DecidableEq, Repr

/-- NewProxy returns an instance of Proxy. -/
def NewProxy (url : String) (countries : List String) : Proxy :=
  { Success := 0, Service := url, Countries := countries, Failure := [], Entries := [] }

/-! ## Fetch -/

/-- What one HTTP round trip of `Fetch` comes to: the first step that fails, with its
(non-nil) error, or the record the JSON decoder filled in. -/
inductive Response where
  | requestError (err : String)
  | transportError (err : String)
  | decodeError (err : String)
  | decoded (v : Settings)
deriving DecidableEq, Repr

/-- Fetch queries a web API Service to get one proxy. The result is the pair of values
sent on `fails` and on `queue`. -/
def Proxy.Fetch (_p : Proxy) : Response → GoError × Settings
  | .requestError err => (some err, Settings.empty)
  | .transportError err => (some err, Settings.empty)
  | .decodeError err => (some err, Settings.empty)
  | .decoded v =>
    if v.StatusCode = 429 then (some v.StatusMessage, Settings.empty)
    else (none, v)

/-! ## Execute -/

/-- One turn of the drain loop of `Execute`, with `fail` and `item` the values received. -/
def Proxy.receive (p : Proxy) (fail : GoError) (item : Settings) : Proxy :=
  { p with
    Failure := p.Failure ++ [fail]
    Entries := p.Entries ++ [item]
    Success := if item.Curl ≠ "" then p.Success + 1 else p.Success }

/-- The drain loop of `Execute`: `k` turns, each receiving from `fails` and from `queue`.
`none` when a channel runs dry with no sender left: the receive never returns. -/
def Proxy.drain : Nat → List GoError → List Settings → Proxy → Option Proxy
  | 0, _, _, p => some p
  | k + 1, fail :: fails, item :: queue, p => Proxy.drain k fails queue (p.receive fail item)
  | _ + 1, _, _, _ => none

/-- The message `Execute` builds from `p.Failure`: a bullet line for each non-nil error. -/
def joinFailures (failure : List GoError) : String :=
  failure.foldl
    (fun msg err =>
      match err with
      | some e => msg ++ ("• " ++ e ++ "\n")
      | none => msg)
    ""

/-- Execute returns a list with N proxy settings. `fails` and `queue` are what the `n`
goroutines send on the two channels, in order of arrival. The result is the returned
error and the Proxy as the call leaves it; `none` when the call does not return
(`make` panics on a negative capacity, or a receive blocks for ever). -/
def Proxy.Execute (p : Proxy) (n : Int) (fails : List GoError) (queue : List Settings) :
    Option (GoError × Proxy) :=
  if n < 0 then none
  else
    match p.drain n.toNat fails queue with
    | none => none
    | some p1 =>
      let msg := joinFailures p1.Failure
      if msg = "" then some (none, p1) else some (some msg, p1)

/-- The values `n` goroutines running `Fetch` send, one response each. -/
def Proxy.outcomes (p : Proxy) (rs : List Response) : List (GoError × Settings) :=
  rs.map p.Fetch

/-! ## CheckCountry -/

/-- The loop of `CheckCountry` over `p.Countries`. -/
def checkCountryLoop (country : String) : List String → Bool
  | [] => false
  | cnt :: rest => if cnt = country then true else checkCountryLoop country rest

/-- CheckCountry reports whether `country` is one of `p.Countries`. -/
def Proxy.CheckCountry (p : Proxy) (country : String) : Bool :=
  checkCountryLoop country p.Countries

/-! ## sorting.go: ByFilter -/

/-- ByFilter is a slice of `Settings` seen through `sort.Interface`. -/
abbrev ByFilter := List Settings

/-- The element `s[i]` (the zero value where Go would panic on the index; `sort.Sort`
never leaves the range). -/
def ByFilter.at (s : ByFilter) (i : Nat) : Settings := s.getD i Settings.empty

/-- Len is the number of elements. -/
def ByFilter.Len (s : ByFilter) : Nat := s.length

/-- Swap exchanges the elements at `i` and `j`: `s[i], s[j] = s[j], s[i]`
(an index out of range panics in Go; `sort.Sort` passes indices below `Len()` only). -/
def ByFilter.Swap (s : ByFilter) (i j : Nat) : ByFilter :=
  if i < s.length ∧ j < s.length then (s.set i (s.at j)).set j (s.at i) else s

/-- Less is `s[i].Filter < s[j].Filter`, Go's lexicographic comparison of strings. -/
def ByFilter.Less (s : ByFilter) (i j : Nat) : Bool :=
  decide ((s.at i).Filter.toList < (s.at j).Filter.toList)

/-! ## sort.Sort of the Go standard library (pattern-defeating quicksort, Go 1.19 and later)

`Proxy.Sort` hands its entries to `sort.Sort`, so the functions of package `sort` are
transcribed here with `data` a `ByFilter`. Loops carry a count of the turns left. -/

/-- The inner loop of `insertionSort`: `for j := i; j > a && data.Less(j, j-1); j--`. -/
def insertionSortInner (a : Nat) : Nat → ByFilter → ByFilter
  | 0, data => data
  | j + 1, data =>
    if j + 1 > a ∧ data.Less (j + 1) j then insertionSortInner a j (data.Swap (j + 1) j)
    else data

/-- The outer loop of `insertionSort`: `for i := a + 1; i < b; i++`. -/
def insertionSortOuter (a b : Nat) : Nat → Nat → ByFilter → ByFilter
  | 0, _, data => data
  | k + 1, i, data =>
    if i < b then insertionSortOuter a b k (i + 1) (insertionSortInner a i data) else data

/-- insertionSort sorts data[a:b] using insertion sort. -/
def insertionSort (data : ByFilter) (a b : Nat) : ByFilter :=
  insertionSortOuter a b (b - a) (a + 1) data

/-- The loop of `siftDown`, from `root`. -/
def siftDownLoop (hi first : Nat) : Nat → Nat → ByFilter → ByFilter
  | 0, _, data => data
  | k + 1, root, data =>
    let child := 2 * root + 1
    if child ≥ hi then data
    else
      let child := if child + 1 < hi ∧ data.Less (first + child) (first + child + 1)
        then child + 1 else child
      if ¬ data.Less (first + root) (first + child) then data
      else siftDownLoop hi first k child (data.Swap (first + root) (first + child))

/-- siftDown implements the heap property on data[lo:hi]. -/
def siftDown (data : ByFilter) (lo hi first : Nat) : ByFilter :=
  siftDownLoop hi first hi lo data

/-- First loop of `heapSort`: `for i := (hi - 1) / 2; i >= 0; i--`. -/
def heapSortBuild (hi first : Nat) : Nat → ByFilter → ByFilter
  | 0, data => siftDown data 0 hi first
  | i + 1, data => heapSortBuild hi first i (siftDown data (i + 1) hi first)

/-- Second loop of `heapSort`: `for i := hi - 1; i >= 0; i--`. -/
def heapSortPop (first : Nat) : Nat → ByFilter → ByFilter
  | 0, data => siftDown (data.Swap first (first + 0)) 0 0 first
  | i + 1, data => heapSortPop first i (siftDown (data.Swap first (first + (i + 1))) 0 (i + 1) first)

/-- heapSort sorts data[a:b] (called with `b - a > 12`). -/
def heapSort (data : ByFilter) (a b : Nat) : ByFilter :=
  let first := a
  let hi := b - a
  heapSortPop first (hi - 1) (heapSortBuild hi first ((hi - 1) / 2) data)

/-- Hint for pdqsort when choosing the pivot. -/
inductive sortedHint where
  | unknownHint
  | increasingHint
  | decreasingHint
deriving DecidableEq, Repr

/-- One step of the xorshift generator, on `uint64`. -/
def xorshiftNext (r : Nat) : Nat :=
  let r := r ^^^ ((r <<< 13) % 2 ^ 64)
  let r := r ^^^ (r >>> 7)
  r ^^^ ((r <<< 17) % 2 ^ 64)

/-- The power of two above `length`: `1 << bits.Len(uint(length))`. -/
def nextPowerOfTwo (length : Nat) : Nat := 2 ^ bitLen length

/-- The loop of `breakPatterns`: three swaps, `i = 0, 1, 2`, each of the element at
`idx + i` with one at a pseudo-random place of `data[a:b]`. -/
def breakPatternsLoop (a length modulus idx : Nat) : Nat → Nat → Nat → ByFilter → ByFilter
  | 0, _, _, data => data
  | k + 1, i, random, data =>
    let random := xorshiftNext random
    let other := random &&& (modulus - 1)
    let other := if other ≥ length then other - length else other
    breakPatternsLoop a length modulus idx k (i + 1) random (data.Swap (idx + i) (a + other))

/-- breakPatterns scatters some elements around in an attempt to break some patterns
that might cause imbalanced partitions in quicksort. -/
def breakPatterns (data : ByFilter) (a b : Nat) : ByFilter :=
  let length := b - a
  if length ≥ 8 then
    breakPatternsLoop a length (nextPowerOfTwo length) (a + (length / 4) * 2 - 1) 3 0 length data
  else data

/-- order2 returns x,y where data[x] <= data[y], where x,y=a,b or x,y=b,a,
and the count of swaps. -/
def order2 (data : ByFilter) (a b swaps : Nat) : Nat × Nat × Nat :=
  if data.Less b a then (b, a, swaps + 1) else (a, b, swaps)

/-- median returns x where data[x] is the median of data[a],data[b],data[c],
and the count of swaps. -/
def median (data : ByFilter) (a b c swaps : Nat) : Nat × Nat :=
  let r1 := order2 data a b swaps
  let r2 := order2 data r1.2.1 c r1.2.2
  let r3 := order2 data r1.1 r2.1 r2.2.2
  (r3.2.1, r3.2.2)

/-- medianAdjacent finds the median of data[a - 1], data[a], data[a + 1]. -/
def medianAdjacent (data : ByFilter) (a swaps : Nat) : Nat × Nat :=
  median data (a - 1) a (a + 1) swaps

/-- choosePivot chooses a pivot in data[a:b]. -/
def choosePivot (data : ByFilter) (a b : Nat) : Nat × sortedHint :=
  let l := b - a
  let i := a + l / 4 * 1
  let j := a + l / 4 * 2
  let k := a + l / 4 * 3
  let r :=
    if l ≥ 8 then
      if l ≥ 50 then
        let ri := medianAdjacent data i 0
        let rj := medianAdjacent data j ri.2
        let rk := medianAdjacent data k rj.2
        median data ri.1 rj.1 rk.1 rk.2
      else median data i j k 0
    else (j, 0)
  if r.2 = 0 then (r.1, .increasingHint)
  else if r.2 = 12 then (r.1, .decreasingHint)
  else (r.1, .unknownHint)

/-- The loop of `reverseRange`: `for i < j`. -/
def reverseRangeLoop : Nat → Nat → Nat → ByFilter → ByFilter
  | 0, _, _, data => data
  | k + 1, i, j, data =>
    if i < j then reverseRangeLoop k (i + 1) (j - 1) (data.Swap i j) else data

/-- reverseRange reverses data[a:b]. -/
def reverseRange (data : ByFilter) (a b : Nat) : ByFilter :=
  reverseRangeLoop (b - a) a (b - 1) data

/-- The scan of `partialInsertionSort`: `for i < b && !data.Less(i, i-1) { i++ }`. -/
def scanInOrder (b : Nat) : Nat → Nat → ByFilter → Nat
  | 0, i, _ => i
  | k + 1, i, data =>
    if i < b ∧ ¬ data.Less i (i - 1) then scanInOrder b k (i + 1) data else i

/-- Shift the smaller one to the left: `for j := i - 1; j >= 1; j--`. -/
def shiftSmaller : Nat → ByFilter → ByFilter
  | 0, data => data
  | j + 1, data =>
    if ¬ data.Less (j + 1) j then data else shiftSmaller j (data.Swap (j + 1) j)

/-- Shift the greater one to the right: `for j := i + 1; j < b; j++`. -/
def shiftGreater (b : Nat) : Nat → Nat → ByFilter → ByFilter
  | 0, _, data => data
  | k + 1, j, data =>
    if j < b then
      if ¬ data.Less j (j - 1) then data else shiftGreater b k (j + 1) (data.Swap j (j - 1))
    else data

/-- The loop of `partialInsertionSort`: `for j := 0; j < maxSteps; j++`, from `i`. -/
def partialInsertionSortLoop (a b : Nat) : Nat → Nat → ByFilter → ByFilter × Bool
  | 0, _, data => (data, false)
  | k + 1, i, data =>
    let i := scanInOrder b (b - i) i data
    if i = b then (data, true)
    else if b - a < 50 then (data, false)
    else
      let data := data.Swap i (i - 1)
      let data := if i - a ≥ 2 then shiftSmaller (i - 1) data else data
      let data := if b - i ≥ 2 then shiftGreater b (b - (i + 1)) (i + 1) data else data
      partialInsertionSortLoop a b k i data

/-- partialInsertionSort partially sorts a slice, returns true if the slice is sorted
at the end. -/
def partialInsertionSort (data : ByFilter) (a b : Nat) : ByFilter × Bool :=
  partialInsertionSortLoop a b 5 (a + 1) data

/-- `for i <= j && !data.Less(a, i) { i++ }` of `partitionEqual`. -/
def skipNotGreater (a j : Nat) (data : ByFilter) : Nat → Nat → Nat
  | 0, i => i
  | k + 1, i => if i ≤ j ∧ ¬ data.Less a i then skipNotGreater a j data k (i + 1) else i

/-- `for i <= j && data.Less(a, j) { j-- }` of `partitionEqual`. -/
def skipGreater (a i : Nat) (data : ByFilter) : Nat → Nat
  | 0 => 0
  | j + 1 => if i ≤ j + 1 ∧ data.Less a (j + 1) then skipGreater a i data j else j + 1

/-- The loop of `partitionEqual`; returns `i`. -/
def partitionEqualLoop (a : Nat) : Nat → Nat → Nat → ByFilter → ByFilter × Nat
  | 0, i, _, data => (data, i)
  | k + 1, i, j, data =>
    let i := skipNotGreater a j data (j + 1 - i) i
    let j := skipGreater a i data j
    if i > j then (data, i)
    else partitionEqualLoop a k (i + 1) (j - 1) (data.Swap i j)

/-- partitionEqual partitions data[a:b] into elements equal to data[pivot] followed by
elements greater than data[pivot]. -/
def partitionEqual (data : ByFilter) (a b pivot : Nat) : ByFilter × Nat :=
  let data := data.Swap a pivot
  partitionEqualLoop a (b - a) (a + 1) (b - 1) data

/-- `for i <= j && data.Less(i, a) { i++ }` of `partition`. -/
def skipLess (a j : Nat) (data : ByFilter) : Nat → Nat → Nat
  | 0, i => i
  | k + 1, i => if i ≤ j ∧ data.Less i a then skipLess a j data k (i + 1) else i

/-- `for i <= j && !data.Less(j, a) { j-- }` of `partition`. -/
def skipNotLess (a i : Nat) (data : ByFilter) : Nat → Nat
  | 0 => 0
  | j + 1 => if i ≤ j + 1 ∧ ¬ data.Less (j + 1) a then skipNotLess a i data j else j + 1

/-- The second loop of `partition`; returns `j`. -/
def partitionLoop (a : Nat) : Nat → Nat → Nat → ByFilter → ByFilter × Nat
  | 0, _, j, data => (data, j)
  | k + 1, i, j, data =>
    let i := skipLess a j data (j + 1 - i) i
    let j := skipNotLess a i data j
    if i > j then (data, j)
    else partitionLoop a k (i + 1) (j - 1) (data.Swap i j)

/-- partition does one quicksort partition: the new position of the pivot, and whether
the slice was already partitioned. -/
def partition (data : ByFilter) (a b pivot : Nat) : ByFilter × Nat × Bool :=
  let data := data.Swap a pivot
  let i := skipLess a (b - 1) data (b - 1 + 1 - (a + 1)) (a + 1)
  let j := skipNotLess a i data (b - 1)
  if i > j then (data.Swap j a, j, true)
  else
    let data := data.Swap i j
    let r := partitionLoop a (b - a) (i + 1) (j - 1) data
    (r.1.Swap r.2 a, r.2, false)

/-- pdqsort sorts data[a:b]; `fuel` bounds the turns of its loop and the depth of its
recursion (`b - a` is enough, as every turn shortens the range). -/
def pdqsortLoop : Nat → ByFilter → Nat → Nat → Nat → Bool → Bool → ByFilter
  | 0, data, _, _, _, _, _ => data
  | fuel + 1, data, a, b, limit, wasBalanced, wasPartitioned =>
    let length := b - a
    if length ≤ 12 then insertionSort data a b
    else if limit = 0 then heapSort data a b
    else
      let data1 := if ¬ wasBalanced then breakPatterns data a b else data
      let limit1 := if ¬ wasBalanced then limit - 1 else limit
      let ph := choosePivot data1 a b
      let data2 := if ph.2 = .decreasingHint then reverseRange data1 a b else data1
      let pivot := if ph.2 = .decreasingHint then (b - 1) - (ph.1 - a) else ph.1
      let hint := if ph.2 = .decreasingHint then sortedHint.increasingHint else ph.2
      let tryInsert := wasBalanced ∧ wasPartitioned ∧ hint = .increasingHint
      let pis := partialInsertionSort data2 a b
      if tryInsert ∧ pis.2 = true then pis.1
      else
        let data3 := if tryInsert then pis.1 else data2
        if a > 0 ∧ ¬ data3.Less (a - 1) pivot then
          let pe := partitionEqual data3 a b pivot
          pdqsortLoop fuel pe.1 pe.2 b limit1 wasBalanced wasPartitioned
        else
          let pt := partition data3 a b pivot
          let mid := pt.2.1
          let leftLen := mid - a
          let rightLen := b - mid
          let balanceThreshold := length / 8
          if leftLen < rightLen then
            pdqsortLoop fuel (pdqsortLoop fuel pt.1 a mid limit1 true true)
              (mid + 1) b limit1 (decide (leftLen ≥ balanceThreshold)) pt.2.2
          else
            pdqsortLoop fuel (pdqsortLoop fuel pt.1 (mid + 1) b limit1 true true)
              a mid limit1 (decide (rightLen ≥ balanceThreshold)) pt.2.2

/-- pdqsort sorts data[a:b]. -/
def pdqsort (data : ByFilter) (a b limit : Nat) : ByFilter :=
  pdqsortLoop (b - a + 1) data a b limit true true

/-- Sort sorts data in ascending order as determined by the Less method. The sort is not
guaranteed to be stable. -/
def sortSort (data : ByFilter) : ByFilter :=
  let n := data.Len
  if n ≤ 1 then data else pdqsort data 0 n (bitLen n)

/-! ## Proxy.Sort -/

/-- The body of the loop of `Sort`: the `switch` that sets `p.Entries[idx].Filter`. -/
def setFilter (column : String) (item : Settings) : Settings :=
  if column = "port" then { item with Filter := item.Port }
  else if column = "speed" then { item with Filter := item.Speed.mul100.format2 }
  else if column = "country" then { item with Filter := item.Country }
  else if column = "protocol" then { item with Filter := item.Protocol }
  else if column = "uptime" then { item with Filter := toString item.TsChecked }
  else item

/-- Sort re-orders the list of proxies by a column. -/
def Proxy.Sort (p : Proxy) (column : String) : Proxy :=
  { p with Entries := sortSort (p.Entries.map (setFilter column)) }

/-! ## Notions the statements use -/

/-- Count of the entries with a connection string. -/
def countCurl (entries : List Settings) : Nat :=
  entries.countP (fun e => decide (e.Curl ≠ ""))

/-- The success counter agrees with the entries. -/
def Proxy.Counted (p : Proxy) : Prop := p.Success = (countCurl p.Entries : Int)

/-- The Proxy values a program can hold: `NewProxy`, then any calls of `Execute` that
return and of `Sort`. -/
inductive Proxy.Reachable : Proxy → Prop
  | newProxy (url : String) (countries : List String) : Proxy.Reachable (NewProxy url countries)
  | execute (p : Proxy) (n : Int) (fails : List GoError) (queue : List Settings)
      (err : GoError) (p1 : Proxy) :
      Proxy.Reachable p → p.Execute n fails queue = some (err, p1) → Proxy.Reachable p1
  | sort (p : Proxy) (column : String) : Proxy.Reachable p → Proxy.Reachable (p.Sort column)

/-- A Proxy after one `Execute(1)` whose fetch timed out. -/
def afterTimeout : Proxy :=
  { Success := 0, Service := "https://gimmeproxy.com/api/getProxy", Countries := ["US"],
    Failure := [some "timeout"], Entries := [Settings.empty] }

/-- A decoded record with a connection string. -/
def usProxy : Settings :=
  { Curl := "http://1.2.3.4:8080", Country := "US", Port := "8080", Protocol := "http" }

/-- A decoded record of a rate-limited answer. -/
def rateLimited : Settings :=
  { StatusCode := 429, StatusMessage := "too many requests", Curl := "http://1.2.3.4:8080" }

/-- The `float64` nearest to 9.99. -/
def speed999 : Float64 := .finite false 5623870034678907 (-49)

/-- The `float64` 10.00. -/
def speed1000 : Float64 := .finite false 5 1

/-- The `float64` 5.00. -/
def speed500 : Float64 := .finite false 5 0

/-- Three entries with speeds 9.99, 10.00 and 5.00, in that order. -/
def threeSpeeds : Proxy :=
  { Success := 3, Service := "https://gimmeproxy.com/api/getProxy", Countries := ["US"],
    Failure := [none, none, none],
    Entries := [{ Curl := "a", Speed := speed999 }, { Curl := "b", Speed := speed1000 },
      { Curl := "c", Speed := speed500 }] }

/-- Two entries with ports "1" and "2", in that order. -/
def twoPorts : Proxy :=
  { Success := 2, Service := "https://gimmeproxy.com/api/getProxy", Countries := ["US"],
    Failure := [none, none],
    Entries := [{ Curl := "a", Port := "1" }, { Curl := "b", Port := "2" }] }

/-- The entry with its transient sort key blanked. -/
def Settings.withoutFilter (e : Settings) : Settings := { e with Filter := "" }

/-! ## Notions of the ordering proof -/

/-- The sort key of `s[i]`. -/
def keyAt (d : ByFilter) (i : Nat) : String := (d.at i).Filter

/-- The keys of `d[a:b]` are in ascending order. -/
def SortedOn (d : ByFilter) (a b : Nat) : Prop :=
  ∀ i j, a ≤ i → i ≤ j → j < b → keyAt d i ≤ keyAt d j

/-- `d1` differs from `d` inside `d[a:b]` only, and whatever holds of every element of
`d[a:b]` holds of every element of `d1[a:b]`. -/
def Within (a b : Nat) (d d1 : ByFilter) : Prop :=
  d1.length = d.length ∧
  (∀ i, i < a ∨ b ≤ i → d1.at i = d.at i) ∧
  (∀ P : Settings → Prop, (∀ i, a ≤ i → i < b → P (d.at i)) →
    ∀ i, a ≤ i → i < b → P (d1.at i))

/-- The heap of `heapSort`, rooted at `d[first]`: from node `lo` on, no child below `hi`
has a key above its parent's. -/
def HeapFrom (d : ByFilter) (first lo hi : Nat) : Prop :=
  ∀ x c, lo ≤ x → c < hi → (c = 2 * x + 1 ∨ c = 2 * x + 2) →
    keyAt d (first + c) ≤ keyAt d (first + x)

/-- `r` is `d` with `d[a:b]` rearranged into ascending order of keys. -/
def SortedWithin (a b : Nat) (d r : ByFilter) : Prop := Within a b d r ∧ SortedOn r a b

/-! # Theorems

## Execute: what the drain loop leaves behind -/

theorem drain_eq (k : Nat) :
    ∀ (fails : List GoError) (queue : List Settings) (p : Proxy),
      fails.length = k → queue.length = k →
      p.drain k fails queue = some
        { p with
          Failure := p.Failure ++ fails
          Entries := p.Entries ++ queue
          Success := p.Success + (countCurl queue : Int) } := by
  induction k with
  | zero =>
    intro fails queue p hf hq
    obtain rfl := List.length_eq_zero.mp hf
    obtain rfl := List.length_eq_zero.mp hq
    simp [Proxy.drain, countCurl]
  | succ k ih =>
    intro fails queue p hf hq
    match fails, queue, hf, hq with
    | fail :: fails, item :: queue, hf, hq =>
      simp only [List.length_cons, Nat.add_right_cancel_iff] at hf hq
      rw [Proxy.drain, ih fails queue _ hf hq]
      by_cases hc : item.Curl = ""
      · simp [Proxy.receive, countCurl, hc]
      · simp [Proxy.receive, countCurl, hc, List.countP_cons]
        omega

theorem append_ne_empty (msg e : String) : msg ++ ("• " ++ e ++ "\n") ≠ "" := by
  intro h
  have hl := congrArg String.length h
  simp only [String.length_append] at hl
  have h2 : "• ".length = 2 := by decide
  have h0 : "".length = 0 := by decide
  omega

theorem foldl_join_eq_empty (failure : List GoError) :
    ∀ msg : String,
      failure.foldl
        (fun msg err =>
          match err with
          | some e => msg ++ ("• " ++ e ++ "\n")
          | none => msg) msg = "" ↔ msg = "" ∧ ∀ f ∈ failure, f = none := by
  induction failure with
  | nil => intro msg; simp
  | cons f rest ih =>
    intro msg
    rw [List.foldl_cons, ih]
    cases f with
    | none => simp
    | some e =>
      have := append_ne_empty msg e
      simp [this]

theorem joinFailures_eq_empty (failure : List GoError) :
    joinFailures failure = "" ↔ ∀ f ∈ failure, f = none := by
  unfold joinFailures
  rw [foldl_join_eq_empty]
  simp

theorem execute_eq (p : Proxy) (n : Nat) (fails : List GoError) (queue : List Settings)
    (hf : fails.length = n) (hq : queue.length = n) :
    p.Execute n fails queue = some
      (if joinFailures (p.Failure ++ fails) = "" then none
        else some (joinFailures (p.Failure ++ fails)),
       { p with
          Failure := p.Failure ++ fails
          Entries := p.Entries ++ queue
          Success := p.Success + (countCurl queue : Int) }) := by
  unfold Proxy.Execute
  have hn : ¬ ((n : Int) < 0) := by omega
  simp only [hn, if_false, Int.toNat_ofNat, drain_eq n fails queue p hf hq]
  split <;> rfl

/-! ## C1, C3: Execute -/

/-- C1: on a Proxy fresh from `NewProxy`, for every `n ≥ 0` and every outcome of the `n`
fetches (one response each, whatever it is, the values arriving on each channel in any
order), `Execute(n)` returns, and leaves exactly `n` entries and exactly `n` failures. -/
theorem execute_fills_n_slots (url : String) (countries : List String) (n : Nat)
    (rs : List Response) (fails : List GoError) (queue : List Settings)
    (hn : rs.length = n)
    (hf : fails.Perm (((NewProxy url countries).outcomes rs).map Prod.fst))
    (hq : queue.Perm (((NewProxy url countries).outcomes rs).map Prod.snd)) :
    ∃ err p1, (NewProxy url countries).Execute n fails queue = some (err, p1) ∧
      p1.Entries.length = n ∧ p1.Failure.length = n := by
  have hfl : fails.length = n := by
    rw [hf.length_eq]; simp [Proxy.outcomes, hn]
  have hql : queue.length = n := by
    rw [hq.length_eq]; simp [Proxy.outcomes, hn]
  refine ⟨_, _, execute_eq _ n fails queue hfl hql, ?_, ?_⟩
  · simp [NewProxy, hql]
  · simp [NewProxy, hfl]

/-- Witness of C1: three fetches, one of each kind of failure but the first. -/
theorem execute_fills_n_slots_witness :
    ∃ err p1, (NewProxy "u" ["US"]).Execute (3 : Nat)
        [some "too many requests", none, some "EOF"]
        [Settings.empty, Settings.empty, usProxy] = some (err, p1) ∧
      p1.Entries.length = 3 ∧ p1.Failure.length = 3 :=
  execute_fills_n_slots "u" ["US"] 3
    [.decoded usProxy, .decodeError "EOF", .decoded rateLimited]
    [some "too many requests", none, some "EOF"]
    [Settings.empty, Settings.empty, usProxy]
    (by decide) (by decide) (by decide)

/-- C3, as stated, fails: on a Proxy that already holds a failure from an earlier call,
`Execute(1)` with a fetch that succeeds drains one nil error and still returns a non-nil
error. -/
theorem execute_error_counts_earlier_failures :
    (∀ f ∈ [(none : GoError)], f = none) ∧
    afterTimeout.Execute 1 [none] [usProxy] = some (some "• timeout\n",
      { afterTimeout with
        Failure := [some "timeout", none]
        Entries := [Settings.empty, usProxy]
        Success := 1 }) := by
  decide

/-- C3, amended: for every Proxy and every `n ≥ 0`, `Execute(n)` returns, and its error is
nil if and only if every error in the failures list as the call leaves it (those from
earlier calls and the `n` drained by this one) is nil; so when no earlier failure is
non-nil, it is nil if and only if each of the `n` drained errors is nil, and it is nil
when all `n` fetches succeed. -/
theorem execute_error_nil_iff (p : Proxy) (n : Nat) (fails : List GoError)
    (queue : List Settings) (hf : fails.length = n) (hq : queue.length = n) :
    ∃ err p1, p.Execute n fails queue = some (err, p1) ∧
      p1.Failure = p.Failure ++ fails ∧
      (err = none ↔ ∀ f ∈ p.Failure ++ fails, f = none) ∧
      ((∀ f ∈ p.Failure, f = none) → (err = none ↔ ∀ f ∈ fails, f = none)) := by
  refine ⟨_, _, execute_eq p n fails queue hf hq, rfl, ?_, ?_⟩
  · rw [← joinFailures_eq_empty]
    split <;> simp_all
  · intro hp
    rw [show (∀ f ∈ fails, f = none) ↔ (∀ f ∈ p.Failure ++ fails, f = none) from by
      simp only [List.mem_append]
      constructor
      · intro h f hfm
        rcases hfm with h1 | h1
        · exact hp f h1
        · exact h f h1
      · intro h f hfm
        exact h f (Or.inr hfm)]
    rw [← joinFailures_eq_empty]
    split <;> simp_all

/-- Witness of the amended C3: two fetches on a fresh Proxy, one of them failing. -/
theorem execute_error_nil_iff_witness :
    ∃ err p1, (NewProxy "u" ["US"]).Execute (2 : Nat) [none, some "EOF"]
        [usProxy, Settings.empty] = some (err, p1) ∧
      p1.Failure = (NewProxy "u" ["US"]).Failure ++ [none, some "EOF"] ∧
      (err = none ↔ ∀ f ∈ (NewProxy "u" ["US"]).Failure ++ [none, some "EOF"], f = none) ∧
      ((∀ f ∈ (NewProxy "u" ["US"]).Failure, f = none) →
        (err = none ↔ ∀ f ∈ [(none : GoError), some "EOF"], f = none)) :=
  execute_error_nil_iff (NewProxy "u" ["US"]) 2 [none, some "EOF"] [usProxy, Settings.empty]
    (by decide) (by decide)

/-! ## C4, C5: Fetch -/

/-- C4, as stated, fails: a body that decodes to a record without a connection string
(here only a country) is sent on with a nil error and an empty connection string. -/
theorem fetch_nil_error_with_empty_curl :
    (NewProxy "u" ["US"]).Fetch (.decoded { Country := "US" })
      = (none, { Country := "US" }) ∧
    ((NewProxy "u" ["US"]).Fetch (.decoded { Country := "US" })).2.Curl = "" := by
  decide

/-- C4, amended: every outcome of one `Fetch` is either a nil error with the decoded
record (its status code other than 429, its connection string whatever was decoded,
empty or not), or a non-nil error with the empty sentinel. So a non-nil error always
comes with an empty connection string, and a non-empty connection string always with a
nil error. -/
theorem fetch_outcome_shapes (p : Proxy) (r : Response) :
    ((∃ v, r = .decoded v ∧ v.StatusCode ≠ 429 ∧ p.Fetch r = (none, v)) ∨
      (∃ e, p.Fetch r = (some e, Settings.empty))) ∧
    ((p.Fetch r).1 ≠ none → (p.Fetch r).2.Curl = "") ∧
    ((p.Fetch r).2.Curl ≠ "" → (p.Fetch r).1 = none) := by
  cases r with
  | requestError err => simp [Proxy.Fetch, Settings.empty]
  | transportError err => simp [Proxy.Fetch, Settings.empty]
  | decodeError err => simp [Proxy.Fetch, Settings.empty]
  | decoded v =>
    by_cases h : v.StatusCode = 429
    · simp [Proxy.Fetch, h, Settings.empty]
    · simp [Proxy.Fetch, h]

/-- C5: a body that decodes to a record whose status code is 429 makes `Fetch` send the
empty sentinel (empty connection string, whatever the record carried) and a non-nil
error whose message is the record's status message; draining that sentinel, alone or
with any error, leaves the success counter as it was. -/
theorem fetch_rate_limited (p : Proxy) (v : Settings) (h : v.StatusCode = 429) :
    p.Fetch (.decoded v) = (some v.StatusMessage, Settings.empty) ∧
    (p.Fetch (.decoded v)).2.Curl = "" ∧
    (∀ (q : Proxy) (fail : GoError),
      (q.receive fail (p.Fetch (.decoded v)).2).Success = q.Success) ∧
    (∀ q : Proxy, ∃ err q1,
      q.Execute 1 [(p.Fetch (.decoded v)).1] [(p.Fetch (.decoded v)).2] = some (err, q1) ∧
      q1.Success = q.Success) := by
  have hF : p.Fetch (.decoded v) = (some v.StatusMessage, Settings.empty) := by
    simp [Proxy.Fetch, h]
  refine ⟨hF, ?_, ?_, ?_⟩
  · rw [hF]; rfl
  · intro q fail
    rw [hF]
    simp [Proxy.receive, Settings.empty]
  · intro q
    refine ⟨_, _, execute_eq q 1 _ _ rfl rfl, ?_⟩
    rw [hF]
    simp [countCurl, Settings.empty]

/-- Witness of C5: a rate-limited answer that carries a connection string. -/
theorem fetch_rate_limited_witness :
    (NewProxy "u" ["US"]).Fetch (.decoded rateLimited)
      = (some rateLimited.StatusMessage, Settings.empty) ∧
    ((NewProxy "u" ["US"]).Fetch (.decoded rateLimited)).2.Curl = "" ∧
    (∀ (q : Proxy) (fail : GoError),
      (q.receive fail ((NewProxy "u" ["US"]).Fetch (.decoded rateLimited)).2).Success
        = q.Success) ∧
    (∀ q : Proxy, ∃ err q1,
      q.Execute 1 [((NewProxy "u" ["US"]).Fetch (.decoded rateLimited)).1]
        [((NewProxy "u" ["US"]).Fetch (.decoded rateLimited)).2] = some (err, q1) ∧
      q1.Success = q.Success) :=
  fetch_rate_limited (NewProxy "u" ["US"]) rateLimited (by decide)

/-! ## C10: CheckCountry -/

theorem checkCountryLoop_iff (country : String) (countries : List String) :
    checkCountryLoop country countries = true ↔ country ∈ countries := by
  induction countries with
  | nil => simp [checkCountryLoop]
  | cons cnt rest ih =>
    rw [checkCountryLoop]
    by_cases h : cnt = country
    · simp [h]
    · have h2 : ¬ country = cnt := fun e => h e.symm
      simp [h, h2, ih]

/-- C10: for every allow-list given to `NewProxy` and every country code `c`,
`CheckCountry(c)` is true exactly when `c` is an element of the allow-list, by equality
of strings; with the allow-list US, UK it is true for "US" and false for "DE" (and for
"us"), and with the empty allow-list it is false for every code. -/
theorem checkCountry_iff_mem :
    (∀ (url : String) (countries : List String) (c : String),
      (NewProxy url countries).CheckCountry c = true ↔ c ∈ countries) ∧
    (∀ url : String, (NewProxy url ["US", "UK"]).CheckCountry "US" = true) ∧
    (∀ url : String, (NewProxy url ["US", "UK"]).CheckCountry "DE" = false) ∧
    (∀ url : String, (NewProxy url ["US", "UK"]).CheckCountry "us" = false) ∧
    (∀ (url : String) (c : String), (NewProxy url []).CheckCountry c = false) := by
  refine ⟨?_, ?_, ?_, ?_, ?_⟩
  · intro url countries c
    exact checkCountryLoop_iff c countries
  · intro url
    exact (checkCountryLoop_iff "US" ["US", "UK"]).mpr (by decide)
  · intro url
    exact Bool.eq_false_iff.mpr
      (fun h => absurd ((checkCountryLoop_iff "DE" ["US", "UK"]).mp h) (by decide))
  · intro url
    exact Bool.eq_false_iff.mpr
      (fun h => absurd ((checkCountryLoop_iff "us" ["US", "UK"]).mp h) (by decide))
  · intro url c; rfl

/-! ## C6, C8: Sort on concrete entries -/

/-- C6, as stated, fails: as strings "999.00" is not below "1000.00", and after
`Sort("speed")` the entries with speeds 9.99, 10.00, 5.00 are not in the order
5.00, 9.99, 10.00. -/
theorem sort_speed_not_numeric_order :
    ¬ ("999.00" < "1000.00") ∧
    (threeSpeeds.Sort "speed").Entries.map (fun e => e.Speed)
      ≠ [speed500, speed999, speed1000] := by
  constructor
  · rw [String.lt_iff_toList_lt]; decide
  · decide

/-- C6, amended: sorting by "speed" three entries whose speeds are 9.99, 10.00 and 5.00
(in that order) gives them the sort keys "999.00", "1000.00" and "500.00"; these compare
as strings "1000.00" < "500.00" < "999.00", and after `Sort("speed")` the entries appear
in the order 10.00, 5.00, 9.99. -/
theorem sort_speed_lexicographic_order :
    threeSpeeds.Entries.map (fun e => (setFilter "speed" e).Filter)
      = ["999.00", "1000.00", "500.00"] ∧
    "1000.00" < "500.00" ∧ "500.00" < "999.00" ∧
    (threeSpeeds.Sort "speed").Entries.map (fun e => (e.Speed, e.Filter))
      = [(speed1000, "1000.00"), (speed500, "500.00"), (speed999, "999.00")] := by
  refine ⟨by decide, ?_, ?_, by decide⟩
  · rw [String.lt_iff_toList_lt]; decide
  · rw [String.lt_iff_toList_lt]; decide

/-- C8 on the code: `Sort("port")` of two entries with ports "1" and "2" leaves them in
the order "1", "2", the smaller key first: ascending, not descending. -/
theorem sort_port_is_ascending :
    (twoPorts.Sort "port").Entries.map (fun e => e.Filter) = ["1", "2"] ∧
    "1" < "2" ∧ ¬ ("1" ≥ "2") := by
  refine ⟨by decide, ?_, ?_⟩
  · rw [String.lt_iff_toList_lt]; decide
  · rw [ge_iff_le, not_le, String.lt_iff_toList_lt]; decide

/-! ## sort.Sort only swaps: its result is a rearrangement of its input -/

theorem at_eq_getElem (s : ByFilter) (i : Nat) (h : i < s.length) : s.at i = s[i] := by
  simp [ByFilter.at, h]

theorem Swap_length (s : ByFilter) (i j : Nat) : (s.Swap i j).length = s.length := by
  unfold ByFilter.Swap
  split <;> simp

theorem Swap_perm (s : ByFilter) (i j : Nat) : (s.Swap i j).Perm s := by
  unfold ByFilter.Swap
  split
  · rename_i h
    obtain ⟨hi, hj⟩ := h
    rw [List.perm_iff_count]
    intro b
    rw [List.count_set _ _ _ _ (by simpa using hj), List.count_set _ _ _ _ hi,
      at_eq_getElem s i hi, at_eq_getElem s j hj]
    have h1 := List.boole_getElem_le_count b s i hi
    have h2 := List.boole_getElem_le_count b s j hj
    by_cases hij : i = j
    · subst hij
      simp only [List.getElem_set_self]
      omega
    · rw [List.getElem_set_ne hij]
      omega
  · exact List.Perm.refl _

theorem at_Swap (s : ByFilter) (i j k : Nat) (hi : i < s.length) (hj : j < s.length) :
    (s.Swap i j).at k = if k = j then s.at i else if k = i then s.at j else s.at k := by
  unfold ByFilter.Swap
  rw [if_pos ⟨hi, hj⟩]
  unfold ByFilter.at
  simp only [List.getD_eq_getElem?_getD, List.getElem?_set]
  by_cases h1 : k = j
  · subst h1; simp [hj]
  · by_cases h2 : k = i
    · subst h2
      have : ¬ j = k := fun e => h1 e.symm
      simp [this, h1, hi]
    · have a1 : ¬ j = k := fun e => h1 e.symm
      have a2 : ¬ i = k := fun e => h2 e.symm
      simp [h1, h2, a1, a2]

theorem insertionSortInner_perm (a : Nat) : ∀ (j : Nat) (d : ByFilter),
    (insertionSortInner a j d).Perm d := by
  intro j
  induction j with
  | zero => intro d; exact List.Perm.refl _
  | succ j ih =>
    intro d
    rw [insertionSortInner]
    split
    · exact (ih _).trans (Swap_perm _ _ _)
    · exact List.Perm.refl _

theorem insertionSortOuter_perm (a b : Nat) : ∀ (k i : Nat) (d : ByFilter),
    (insertionSortOuter a b k i d).Perm d := by
  intro k
  induction k with
  | zero => intro i d; exact List.Perm.refl _
  | succ k ih =>
    intro i d
    rw [insertionSortOuter]
    split
    · exact (ih _ _).trans (insertionSortInner_perm _ _ _)
    · exact List.Perm.refl _

theorem insertionSort_perm (d : ByFilter) (a b : Nat) : (insertionSort d a b).Perm d :=
  insertionSortOuter_perm _ _ _ _ _

theorem siftDownLoop_perm (hi first : Nat) : ∀ (k root : Nat) (d : ByFilter),
    (siftDownLoop hi first k root d).Perm d := by
  intro k
  induction k with
  | zero => intro root d; exact List.Perm.refl _
  | succ k ih =>
    intro root d
    rw [siftDownLoop]
    simp only []
    split_ifs <;> first | exact List.Perm.refl _ | exact (ih _ _).trans (Swap_perm _ _ _)

theorem siftDown_perm (d : ByFilter) (lo hi first : Nat) : (siftDown d lo hi first).Perm d :=
  siftDownLoop_perm _ _ _ _ _

theorem heapSortBuild_perm (hi first : Nat) : ∀ (i : Nat) (d : ByFilter),
    (heapSortBuild hi first i d).Perm d := by
  intro i
  induction i with
  | zero => intro d; exact siftDown_perm _ _ _ _
  | succ i ih => intro d; rw [heapSortBuild]; exact (ih _).trans (siftDown_perm _ _ _ _)

theorem heapSortPop_perm (first : Nat) : ∀ (i : Nat) (d : ByFilter),
    (heapSortPop first i d).Perm d := by
  intro i
  induction i with
  | zero => intro d; exact (siftDown_perm _ _ _ _).trans (Swap_perm _ _ _)
  | succ i ih =>
    intro d; rw [heapSortPop]
    exact (ih _).trans ((siftDown_perm _ _ _ _).trans (Swap_perm _ _ _))

theorem heapSort_perm (d : ByFilter) (a b : Nat) : (heapSort d a b).Perm d :=
  (heapSortPop_perm _ _ _).trans (heapSortBuild_perm _ _ _ _)

theorem breakPatternsLoop_perm (a length modulus idx : Nat) : ∀ (k i random : Nat) (d : ByFilter),
    (breakPatternsLoop a length modulus idx k i random d).Perm d := by
  intro k
  induction k with
  | zero => intro i random d; exact List.Perm.refl _
  | succ k ih =>
    intro i random d
    rw [breakPatternsLoop]
    exact (ih _ _ _).trans (Swap_perm _ _ _)

theorem breakPatterns_perm (d : ByFilter) (a b : Nat) : (breakPatterns d a b).Perm d := by
  unfold breakPatterns
  simp only []
  split
  · exact breakPatternsLoop_perm _ _ _ _ _ _ _ _
  · exact List.Perm.refl _

theorem reverseRangeLoop_perm : ∀ (k i j : Nat) (d : ByFilter),
    (reverseRangeLoop k i j d).Perm d := by
  intro k
  induction k with
  | zero => intro i j d; exact List.Perm.refl _
  | succ k ih =>
    intro i j d
    rw [reverseRangeLoop]
    split
    · exact (ih _ _ _).trans (Swap_perm _ _ _)
    · exact List.Perm.refl _

theorem reverseRange_perm (d : ByFilter) (a b : Nat) : (reverseRange d a b).Perm d :=
  reverseRangeLoop_perm _ _ _ _

theorem shiftSmaller_perm : ∀ (j : Nat) (d : ByFilter), (shiftSmaller j d).Perm d := by
  intro j
  induction j with
  | zero => intro d; exact List.Perm.refl _
  | succ j ih =>
    intro d
    rw [shiftSmaller]
    split
    · exact List.Perm.refl _
    · exact (ih _).trans (Swap_perm _ _ _)

theorem shiftGreater_perm (b : Nat) : ∀ (k j : Nat) (d : ByFilter),
    (shiftGreater b k j d).Perm d := by
  intro k
  induction k with
  | zero => intro j d; exact List.Perm.refl _
  | succ k ih =>
    intro j d
    rw [shiftGreater]
    split
    · split
      · exact List.Perm.refl _
      · exact (ih _ _).trans (Swap_perm _ _ _)
    · exact List.Perm.refl _

theorem partialInsertionSortLoop_perm (a b : Nat) : ∀ (k i : Nat) (d : ByFilter),
    (partialInsertionSortLoop a b k i d).1.Perm d := by
  intro k
  induction k with
  | zero => intro i d; exact List.Perm.refl _
  | succ k ih =>
    intro i d
    rw [partialInsertionSortLoop]
    simp only []
    split
    · exact List.Perm.refl _
    · split
      · exact List.Perm.refl _
      · refine (ih _ _).trans ?_
        have h1 : (if scanInOrder b (b - i) i d - a ≥ 2
            then shiftSmaller (scanInOrder b (b - i) i d - 1)
              (d.Swap (scanInOrder b (b - i) i d) (scanInOrder b (b - i) i d - 1))
            else d.Swap (scanInOrder b (b - i) i d) (scanInOrder b (b - i) i d - 1)).Perm d := by
          split
          · exact (shiftSmaller_perm _ _).trans (Swap_perm _ _ _)
          · exact Swap_perm _ _ _
        split
        · exact (shiftGreater_perm _ _ _ _).trans h1
        · exact h1

theorem partialInsertionSort_perm (d : ByFilter) (a b : Nat) :
    (partialInsertionSort d a b).1.Perm d :=
  partialInsertionSortLoop_perm _ _ _ _ _

theorem partitionEqualLoop_perm (a : Nat) : ∀ (k i j : Nat) (d : ByFilter),
    (partitionEqualLoop a k i j d).1.Perm d := by
  intro k
  induction k with
  | zero => intro i j d; exact List.Perm.refl _
  | succ k ih =>
    intro i j d
    rw [partitionEqualLoop]
    split
    · exact List.Perm.refl _
    · exact (ih _ _ _).trans (Swap_perm _ _ _)

theorem partitionEqual_perm (d : ByFilter) (a b pivot : Nat) :
    (partitionEqual d a b pivot).1.Perm d :=
  (partitionEqualLoop_perm _ _ _ _ _).trans (Swap_perm _ _ _)

theorem partitionLoop_perm (a : Nat) : ∀ (k i j : Nat) (d : ByFilter),
    (partitionLoop a k i j d).1.Perm d := by
  intro k
  induction k with
  | zero => intro i j d; exact List.Perm.refl _
  | succ k ih =>
    intro i j d
    rw [partitionLoop]
    split
    · exact List.Perm.refl _
    · exact (ih _ _ _).trans (Swap_perm _ _ _)

theorem partition_perm (d : ByFilter) (a b pivot : Nat) :
    (partition d a b pivot).1.Perm d := by
  unfold partition
  simp only []
  split
  · exact (Swap_perm _ _ _).trans (Swap_perm _ _ _)
  · exact (Swap_perm _ _ _).trans ((partitionLoop_perm _ _ _ _ _).trans
      ((Swap_perm _ _ _).trans (Swap_perm _ _ _)))

theorem pdqsortLoop_perm : ∀ (fuel : Nat) (d : ByFilter) (a b limit : Nat) (wb wp : Bool),
    (pdqsortLoop fuel d a b limit wb wp).Perm d := by
  intro fuel
  induction fuel with
  | zero => intro d a b limit wb wp; exact List.Perm.refl _
  | succ fuel ih =>
    intro d a b limit wb wp
    rw [pdqsortLoop]
    simp only []
    have hd1 : (if ¬ wb = true then breakPatterns d a b else d).Perm d := by
      split
      · exact breakPatterns_perm _ _ _
      · exact List.Perm.refl _
    generalize (if ¬ wb = true then breakPatterns d a b else d) = d1 at hd1 ⊢
    generalize (if ¬ wb = true then limit - 1 else limit) = limit1
    have hd2 : (if (choosePivot d1 a b).2 = sortedHint.decreasingHint
        then reverseRange d1 a b else d1).Perm d := by
      split
      · exact (reverseRange_perm _ _ _).trans hd1
      · exact hd1
    generalize (if (choosePivot d1 a b).2 = sortedHint.decreasingHint
        then reverseRange d1 a b else d1) = d2 at hd2 ⊢
    generalize (if (choosePivot d1 a b).2 = sortedHint.decreasingHint
        then b - 1 - ((choosePivot d1 a b).1 - a) else (choosePivot d1 a b).1) = pivot
    generalize (if (choosePivot d1 a b).2 = sortedHint.decreasingHint
        then sortedHint.increasingHint else (choosePivot d1 a b).2) = hint
    split
    · exact insertionSort_perm _ _ _
    · split
      · exact heapSort_perm _ _ _
      · split
        · exact (partialInsertionSort_perm _ _ _).trans hd2
        · have hd3 : (if wb = true ∧ wp = true ∧ hint = sortedHint.increasingHint
              then (partialInsertionSort d2 a b).1 else d2).Perm d := by
            split
            · exact (partialInsertionSort_perm _ _ _).trans hd2
            · exact hd2
          generalize (if wb = true ∧ wp = true ∧ hint = sortedHint.increasingHint
              then (partialInsertionSort d2 a b).1 else d2) = d3 at hd3 ⊢
          split
          · exact (ih _ _ _ _ _ _).trans ((partitionEqual_perm _ _ _ _).trans hd3)
          · split
            · exact (ih _ _ _ _ _ _).trans ((ih _ _ _ _ _ _).trans
                ((partition_perm _ _ _ _).trans hd3))
            · exact (ih _ _ _ _ _ _).trans ((ih _ _ _ _ _ _).trans
                ((partition_perm _ _ _ _).trans hd3))

theorem sortSort_perm (d : ByFilter) : (sortSort d).Perm d := by
  unfold sortSort
  simp only []
  split
  · exact List.Perm.refl _
  · exact pdqsortLoop_perm _ _ _ _ _ _ _


/-! ## sort.Sort on entries that all carry one key: no swap at all -/

theorem Less_eq_false_of_keys (d : ByFilter) (k : String) (hk : ∀ e ∈ d, e.Filter = k)
    (i j : Nat) (hi : i < d.length) (hj : j < d.length) : d.Less i j = false := by
  unfold ByFilter.Less
  rw [at_eq_getElem d i hi, at_eq_getElem d j hj, hk _ (List.getElem_mem hi),
    hk _ (List.getElem_mem hj)]
  simp

theorem insertionSortInner_keys (d : ByFilter) (k : String) (hk : ∀ e ∈ d, e.Filter = k)
    (a j : Nat) (hj : j < d.length) : insertionSortInner a j d = d := by
  cases j with
  | zero => rfl
  | succ j =>
    rw [insertionSortInner, Less_eq_false_of_keys d k hk (j + 1) j hj (by omega)]
    simp

theorem insertionSortOuter_keys (d : ByFilter) (k : String) (hk : ∀ e ∈ d, e.Filter = k)
    (a b : Nat) (hb : b ≤ d.length) : ∀ (fuel i : Nat), insertionSortOuter a b fuel i d = d := by
  intro fuel
  induction fuel with
  | zero => intro i; rfl
  | succ fuel ih =>
    intro i
    rw [insertionSortOuter]
    split
    · rw [insertionSortInner_keys d k hk a i (by omega)]
      exact ih _
    · rfl

theorem order2_keys (d : ByFilter) (k : String) (hk : ∀ e ∈ d, e.Filter = k)
    (a b swaps : Nat) (ha : a < d.length) (hb : b < d.length) :
    order2 d a b swaps = (a, b, swaps) := by
  unfold order2
  rw [Less_eq_false_of_keys d k hk b a hb ha]
  simp

theorem median_keys (d : ByFilter) (k : String) (hk : ∀ e ∈ d, e.Filter = k)
    (a b c swaps : Nat) (ha : a < d.length) (hb : b < d.length) (hc : c < d.length) :
    median d a b c swaps = (b, swaps) := by
  unfold median
  simp only [order2_keys d k hk a b swaps ha hb, order2_keys d k hk b c swaps hb hc]

theorem choosePivot_keys (d : ByFilter) (k : String) (hk : ∀ e ∈ d, e.Filter = k)
    (a b : Nat) (hab : a < b) (hb : b ≤ d.length) :
    (choosePivot d a b).2 = sortedHint.increasingHint := by
  unfold choosePivot
  simp only []
  have h4 : (b - a) / 4 * 3 < b - a := by omega
  have hr : (if b - a ≥ 8 then
      if b - a ≥ 50 then
        median d (medianAdjacent d (a + (b - a) / 4 * 1) 0).1
          (medianAdjacent d (a + (b - a) / 4 * 2) (medianAdjacent d (a + (b - a) / 4 * 1) 0).2).1
          (medianAdjacent d (a + (b - a) / 4 * 3)
            (medianAdjacent d (a + (b - a) / 4 * 2)
              (medianAdjacent d (a + (b - a) / 4 * 1) 0).2).2).1
          (medianAdjacent d (a + (b - a) / 4 * 3)
            (medianAdjacent d (a + (b - a) / 4 * 2)
              (medianAdjacent d (a + (b - a) / 4 * 1) 0).2).2).2
      else median d (a + (b - a) / 4 * 1) (a + (b - a) / 4 * 2) (a + (b - a) / 4 * 3) 0
      else (a + (b - a) / 4 * 2, 0)).2 = 0 := by
    split
    · split
      · rename_i h50
        have e1 : ∀ s, medianAdjacent d (a + (b - a) / 4 * 1) s = (a + (b - a) / 4 * 1, s) :=
          fun s => median_keys d k hk _ _ _ s (by omega) (by omega) (by omega)
        have e2 : ∀ s, medianAdjacent d (a + (b - a) / 4 * 2) s = (a + (b - a) / 4 * 2, s) :=
          fun s => median_keys d k hk _ _ _ s (by omega) (by omega) (by omega)
        have e3 : ∀ s, medianAdjacent d (a + (b - a) / 4 * 3) s = (a + (b - a) / 4 * 3, s) :=
          fun s => median_keys d k hk _ _ _ s (by omega) (by omega) (by omega)
        simp only [e1, e2, e3]
        rw [median_keys d k hk _ _ _ _ (by omega) (by omega) (by omega)]
      · rw [median_keys d k hk _ _ _ _ (by omega) (by omega) (by omega)]
    · rfl
  simp only [hr, if_true]

theorem scanInOrder_keys (d : ByFilter) (k : String) (hk : ∀ e ∈ d, e.Filter = k)
    (b : Nat) (hb : b ≤ d.length) : ∀ (fuel i : Nat), 1 ≤ i → i ≤ b → b - i ≤ fuel →
      scanInOrder b fuel i d = b := by
  intro fuel
  induction fuel with
  | zero => intro i _ h2 h3; rw [scanInOrder]; omega
  | succ fuel ih =>
    intro i h1 h2 h3
    rw [scanInOrder]
    by_cases hib : i < b
    · rw [Less_eq_false_of_keys d k hk i (i - 1) (by omega) (by omega)]
      simp only [hib, true_and, Bool.false_eq_true, not_false_eq_true, if_true]
      exact ih (i + 1) (by omega) (by omega) (by omega)
    · simp only [hib, false_and, if_false]
      omega

theorem partialInsertionSort_keys (d : ByFilter) (k : String) (hk : ∀ e ∈ d, e.Filter = k)
    (a b : Nat) (hab : a < b) (hb : b ≤ d.length) :
    partialInsertionSort d a b = (d, true) := by
  unfold partialInsertionSort
  rw [partialInsertionSortLoop]
  simp only []
  rw [scanInOrder_keys d k hk b hb _ _ (by omega) (by omega) (by omega)]
  simp

theorem bitLen_ne_zero (n : Nat) (hn : n ≠ 0) : bitLen n ≠ 0 := by
  unfold bitLen
  cases n with
  | zero => exact absurd rfl hn
  | succ m => rw [bitLenLoop]; simp

theorem sortSort_keys (d : ByFilter) (k : String) (hk : ∀ e ∈ d, e.Filter = k) :
    sortSort d = d := by
  unfold sortSort ByFilter.Len
  simp only []
  split
  · rfl
  · rename_i hn
    unfold pdqsort
    rw [pdqsortLoop]
    simp only []
    split
    · exact insertionSortOuter_keys d k hk _ _ (le_refl _) _ _
    · rename_i h12
      simp only [Nat.sub_zero] at h12
      rw [if_neg (bitLen_ne_zero _ (by omega))]
      simp only [not_true_eq_false, if_false, true_and]
      rw [choosePivot_keys d k hk 0 d.length (by omega) (le_refl _)]
      simp only [reduceCtorEq, if_false, true_and]
      rw [partialInsertionSort_keys d k hk 0 d.length (by omega) (le_refl _)]
      simp

/-! ## C2: the success counter -/

theorem receive_counted (p : Proxy) (fail : GoError) (item : Settings) (h : p.Counted) :
    (p.receive fail item).Counted := by
  unfold Proxy.Counted at h ⊢
  by_cases hc : item.Curl = ""
  · simp [Proxy.receive, countCurl, hc, h]
  · simp [Proxy.receive, countCurl, hc, h, List.countP_cons]

theorem drain_counted (k : Nat) : ∀ (fails : List GoError) (queue : List Settings)
    (p p1 : Proxy), p.Counted → p.drain k fails queue = some p1 → p1.Counted := by
  induction k with
  | zero =>
    intro fails queue p p1 h hd
    simp only [Proxy.drain, Option.some.injEq] at hd
    exact hd ▸ h
  | succ k ih =>
    intro fails queue p p1 h hd
    match fails, queue, hd with
    | fail :: fails, item :: queue, hd =>
      rw [Proxy.drain] at hd
      exact ih fails queue _ p1 (receive_counted p fail item h) hd
    | [], _, hd => simp [Proxy.drain] at hd
    | _ :: _, [], hd => simp [Proxy.drain] at hd

theorem execute_counted (p : Proxy) (n : Int) (fails : List GoError) (queue : List Settings)
    (err : GoError) (p1 : Proxy) (h : p.Counted)
    (he : p.Execute n fails queue = some (err, p1)) : p1.Counted := by
  unfold Proxy.Execute at he
  split at he
  · exact absurd he (by simp)
  · split at he
    · exact absurd he (by simp)
    · rename_i p2 hd
      have h2 := drain_counted _ fails queue p p2 h hd
      simp only [] at he
      split at he
      · simp only [Option.some.injEq, Prod.mk.injEq] at he
        exact he.2 ▸ h2
      · simp only [Option.some.injEq, Prod.mk.injEq] at he
        exact he.2 ▸ h2

theorem countCurl_setFilter (column : String) (entries : List Settings) :
    countCurl (entries.map (setFilter column)) = countCurl entries := by
  unfold countCurl
  rw [List.countP_map]
  congr 1
  funext e
  simp only [Function.comp, setFilter]
  split_ifs <;> rfl

theorem sort_counted (p : Proxy) (column : String) (h : p.Counted) :
    (p.Sort column).Counted := by
  unfold Proxy.Counted at h ⊢
  show p.Success = _
  rw [h]
  congr 1
  show countCurl p.Entries = countCurl (sortSort (p.Entries.map (setFilter column)))
  rw [← countCurl_setFilter column p.Entries]
  exact ((sortSort_perm _).countP_eq _).symm

/-- C2: the success counter equals the number of entries whose connection string is not
empty. It holds for the Proxy `NewProxy` returns; every `Execute` that returns preserves
it, and `Execute(n)` does return for every `n ≥ 0` once the `n` fetches have sent their
values; every `Sort(column)` preserves it; so it holds after any sequence of these. -/
theorem success_counts_entries :
    (∀ (url : String) (countries : List String), (NewProxy url countries).Counted) ∧
    (∀ (p : Proxy) (n : Int) (fails : List GoError) (queue : List Settings)
      (err : GoError) (p1 : Proxy),
      p.Counted → p.Execute n fails queue = some (err, p1) → p1.Counted) ∧
    (∀ (p : Proxy) (n : Nat) (fails : List GoError) (queue : List Settings),
      p.Counted → fails.length = n → queue.length = n →
      ∃ err p1, p.Execute n fails queue = some (err, p1) ∧ p1.Counted) ∧
    (∀ (p : Proxy) (column : String), p.Counted → (p.Sort column).Counted) ∧
    (∀ p : Proxy, p.Reachable → p.Counted) := by
  have hnew : ∀ (url : String) (countries : List String), (NewProxy url countries).Counted :=
    fun url countries => by simp [Proxy.Counted, NewProxy, countCurl]
  refine ⟨hnew, execute_counted, ?_, sort_counted, ?_⟩
  · intro p n fails queue h hf hq
    exact ⟨_, _, execute_eq p n fails queue hf hq,
      execute_counted p n fails queue _ _ h (execute_eq p n fails queue hf hq)⟩
  · intro p hr
    induction hr with
    | newProxy url countries => exact hnew url countries
    | execute p n fails queue err p1 _ he ih => exact execute_counted p n fails queue err p1 ih he
    | sort p column _ ih => exact sort_counted p column ih

/-! ## C9: a column `Sort` does not know -/

theorem setFilter_unknown (column : String) (h1 : column ≠ "port") (h2 : column ≠ "speed")
    (h3 : column ≠ "country") (h4 : column ≠ "protocol") (h5 : column ≠ "uptime")
    (item : Settings) : setFilter column item = item := by
  simp [setFilter, h1, h2, h3, h4, h5]

/-- C9: for every column name other than "port", "speed", "country", "protocol" and
"uptime", `Sort(column)` leaves every entry's sort key at its previous value (the loop
changes no entry, and the sorted list is a rearrangement of the entries as they were);
and when all entries carry the same key (for instance none was ever set), `Sort(column)`
leaves the entries in exactly their previous order: the Proxy is unchanged. -/
theorem sort_unknown_column (p : Proxy) (column : String)
    (h1 : column ≠ "port") (h2 : column ≠ "speed") (h3 : column ≠ "country")
    (h4 : column ≠ "protocol") (h5 : column ≠ "uptime") :
    p.Entries.map (setFilter column) = p.Entries ∧
    (p.Sort column).Entries.Perm p.Entries ∧
    (∀ k : String, (∀ e ∈ p.Entries, e.Filter = k) → p.Sort column = p) := by
  have hmap : p.Entries.map (setFilter column) = p.Entries := by
    rw [List.map_congr_left (fun e _ => setFilter_unknown column h1 h2 h3 h4 h5 e), List.map_id']
  refine ⟨hmap, ?_, ?_⟩
  · show (sortSort (p.Entries.map (setFilter column))).Perm p.Entries
    rw [hmap]
    exact sortSort_perm _
  · intro k hk
    show ({ p with Entries := sortSort (p.Entries.map (setFilter column)) } : Proxy) = p
    rw [hmap, sortSort_keys p.Entries k hk]

/-- Witness of C9: sorting by "anonymity" two entries whose keys were never set. -/
theorem sort_unknown_column_witness :
    twoPorts.Entries.map (setFilter "anonymity") = twoPorts.Entries ∧
    (twoPorts.Sort "anonymity").Entries.Perm twoPorts.Entries ∧
    (∀ k : String, (∀ e ∈ twoPorts.Entries, e.Filter = k) →
      twoPorts.Sort "anonymity" = twoPorts) :=
  sort_unknown_column twoPorts "anonymity" (by decide) (by decide) (by decide) (by decide)
    (by decide)

/-! ## sort.Sort puts the keys in ascending order -/

theorem Less_iff (d : ByFilter) (i j : Nat) :
    d.Less i j = true ↔ keyAt d i < keyAt d j := by
  unfold ByFilter.Less keyAt
  rw [String.lt_iff_toList_lt]
  simp

theorem not_Less_iff (d : ByFilter) (i j : Nat) :
    ¬ d.Less i j = true ↔ keyAt d j ≤ keyAt d i := by
  rw [Less_iff, not_lt]

theorem keyAt_Swap (d : ByFilter) (i j k : Nat) (hi : i < d.length) (hj : j < d.length) :
    keyAt (d.Swap i j) k
      = if k = j then keyAt d i else if k = i then keyAt d j else keyAt d k := by
  unfold keyAt
  rw [at_Swap d i j k hi hj]
  split_ifs <;> rfl

theorem Within.refl (a b : Nat) (d : ByFilter) : Within a b d d :=
  ⟨rfl, fun _ _ => rfl, fun _ h => h⟩

theorem Within.trans {a b : Nat} {d d1 d2 : ByFilter} (h1 : Within a b d d1)
    (h2 : Within a b d1 d2) : Within a b d d2 :=
  ⟨h2.1.trans h1.1, fun i hi => (h2.2.1 i hi).trans (h1.2.1 i hi),
    fun P hP => h2.2.2 P (h1.2.2 P hP)⟩

theorem Within.mono {a b a1 b1 : Nat} {d d1 : ByFilter} (h : Within a b d d1)
    (ha : a1 ≤ a) (hb : b ≤ b1) : Within a1 b1 d d1 := by
  refine ⟨h.1, fun i hi => h.2.1 i (by omega), fun P hP i hia hib => ?_⟩
  by_cases hin : a ≤ i ∧ i < b
  · exact h.2.2 P (fun x hx1 hx2 => hP x (by omega) (by omega)) i hin.1 hin.2
  · rw [h.2.1 i (by omega)]
    exact hP i hia hib

theorem Within.key {a b : Nat} {d d1 : ByFilter} (h : Within a b d d1) (i : Nat)
    (hi : i < a ∨ b ≤ i) : keyAt d1 i = keyAt d i := by
  unfold keyAt; rw [h.2.1 i hi]

theorem Within_Swap (a b : Nat) (d : ByFilter) (i j : Nat) (hai : a ≤ i) (hib : i < b)
    (haj : a ≤ j) (hjb : j < b) (hb : b ≤ d.length) : Within a b d (d.Swap i j) := by
  refine ⟨Swap_length d i j, fun k hk => ?_, fun P hP k hka hkb => ?_⟩
  · rw [at_Swap d i j k (by omega) (by omega), if_neg (by omega), if_neg (by omega)]
  · rw [at_Swap d i j k (by omega) (by omega)]
    split_ifs
    · exact hP i hai hib
    · exact hP j haj hjb
    · exact hP k hka hkb

theorem insertionSortInner_spec (a top : Nat) : ∀ (j : Nat) (d : ByFilter),
    a ≤ j → j ≤ top → top < d.length →
    (∀ x y, a ≤ x → x ≤ y → y ≤ top → x ≠ j → y ≠ j → keyAt d x ≤ keyAt d y) →
    (∀ y, j < y → y ≤ top → keyAt d j ≤ keyAt d y) →
    Within a (top + 1) d (insertionSortInner a j d) ∧
      SortedOn (insertionSortInner a j d) a (top + 1) := by
  intro j
  induction j with
  | zero =>
    intro d ha _ _ H1 H2
    refine ⟨Within.refl _ _ _, fun x y hx hxy hy => ?_⟩
    rw [insertionSortInner]
    by_cases hx0 : x = 0
    · by_cases hy0 : y = 0
      · rw [hx0, hy0]
      · rw [hx0]; exact H2 y (by omega) (by omega)
    · exact H1 x y hx hxy (by omega) hx0 (by omega)
  | succ j ih =>
    intro d ha hjt ht H1 H2
    rw [insertionSortInner]
    split
    · rename_i hc
      obtain ⟨hja, hless⟩ := hc
      rw [Less_iff] at hless
      have hk := fun k => keyAt_Swap d (j + 1) j k (by omega) (by omega)
      have hrec := ih (d.Swap (j + 1) j) (by omega) (by omega)
        (by rw [Swap_length]; exact ht)
        (by
          intro x y hx hxy hy hxj hyj
          rw [hk x, hk y, if_neg hxj, if_neg hyj]
          by_cases hx1 : x = j + 1
          · rw [if_pos hx1]
            by_cases hy1 : y = j + 1
            · rw [if_pos hy1]
            · rw [if_neg hy1]
              exact H1 j y (by omega) (by omega) hy (by omega) hy1
          · rw [if_neg hx1]
            by_cases hy1 : y = j + 1
            · rw [if_pos hy1]
              exact H1 x j hx (by omega) (by omega) hx1 (by omega)
            · rw [if_neg hy1]
              exact H1 x y hx hxy hy hx1 hy1)
        (by
          intro y hjy hy
          rw [hk j, hk y, if_pos rfl, if_neg (by omega)]
          by_cases hy1 : y = j + 1
          · rw [if_pos hy1]; exact le_of_lt hless
          · rw [if_neg hy1]; exact H2 y (by omega) hy)
      exact ⟨(Within_Swap a (top + 1) d (j + 1) j (by omega) (by omega) (by omega)
        (by omega) (by omega)).trans hrec.1, hrec.2⟩
    · rename_i hc
      refine ⟨Within.refl _ _ _, fun x y hx hxy hy => ?_⟩
      by_cases hx1 : x = j + 1
      · by_cases hy1 : y = j + 1
        · rw [hx1, hy1]
        · rw [hx1]; exact H2 y (by omega) (by omega)
      · by_cases hy1 : y = j + 1
        · have hja : j + 1 > a := by omega
          have hnl : ¬ d.Less (j + 1) j = true := fun h => hc ⟨hja, h⟩
          rw [not_Less_iff] at hnl
          rw [hy1]
          by_cases hxj : x = j
          · rw [hxj]; exact hnl
          · exact le_trans (H1 x j hx (by omega) (by omega) hx1 (by omega)) hnl
        · exact H1 x y hx hxy (by omega) hx1 hy1

theorem insertionSortOuter_spec (a b : Nat) : ∀ (k i : Nat) (d : ByFilter),
    a < i → i ≤ b → b ≤ d.length → b - i ≤ k → SortedOn d a i →
    Within a b d (insertionSortOuter a b k i d) ∧
      SortedOn (insertionSortOuter a b k i d) a b := by
  intro k
  induction k with
  | zero =>
    intro i d hai hib hb hk hs
    rw [insertionSortOuter]
    have : i = b := by omega
    exact ⟨Within.refl _ _ _, this ▸ hs⟩
  | succ k ih =>
    intro i d hai hib hb hk hs
    rw [insertionSortOuter]
    split
    · rename_i hlt
      have hin := insertionSortInner_spec a i i d (by omega) (le_refl _) (by omega)
        (fun x y hx hxy hy hxi hyi => hs x y hx hxy (by omega))
        (fun y h1 h2 => by omega)
      have hrec := ih (i + 1) (insertionSortInner a i d) (by omega) (by omega)
        (by rw [hin.1.1]; exact hb) (by omega) hin.2
      exact ⟨(hin.1.mono (le_refl _) (by omega)).trans hrec.1, hrec.2⟩
    · have : i = b := by omega
      exact ⟨Within.refl _ _ _, this ▸ hs⟩

theorem insertionSort_spec (d : ByFilter) (a b : Nat) (hb : b ≤ d.length) :
    Within a b d (insertionSort d a b) ∧ SortedOn (insertionSort d a b) a b := by
  unfold insertionSort
  by_cases hab : a + 1 ≤ b
  · exact insertionSortOuter_spec a b (b - a) (a + 1) d (by omega) hab hb (by omega)
      (fun i j hi hij hj => by
        have : i = j := by omega
        rw [this])
  · have h0 : b - a = 0 := by omega
    rw [h0, insertionSortOuter]
    exact ⟨Within.refl _ _ _, fun i j hi hij hj => by omega⟩

theorem skipLess_spec (a j : Nat) (d : ByFilter) : ∀ (k i : Nat), j + 1 - i ≤ k →
    i ≤ skipLess a j d k i ∧ skipLess a j d k i ≤ max i (j + 1) ∧
    (∀ x, i ≤ x → x < skipLess a j d k i → keyAt d x < keyAt d a) ∧
    (skipLess a j d k i ≤ j → keyAt d a ≤ keyAt d (skipLess a j d k i)) := by
  intro k
  induction k with
  | zero =>
    intro i hk
    rw [skipLess]
    exact ⟨le_refl _, le_max_left _ _, fun x h1 h2 => by omega, fun h => by omega⟩
  | succ k ih =>
    intro i hk
    rw [skipLess]
    split
    · rename_i hc
      obtain ⟨hij, hl⟩ := hc
      rw [Less_iff] at hl
      obtain ⟨h1, h2, h3, h4⟩ := ih (i + 1) (by omega)
      refine ⟨by omega, ?_, ?_, h4⟩
      · rw [max_eq_right (by omega)] at h2 ⊢
        exact h2
      · intro x hx1 hx2
        by_cases hxi : x = i
        · rw [hxi]; exact hl
        · exact h3 x (by omega) hx2
    · rename_i hc
      refine ⟨le_refl _, le_max_left _ _, fun x h1 h2 => by omega, fun h => ?_⟩
      have : ¬ d.Less i a = true := fun hl => hc ⟨h, hl⟩
      exact (not_Less_iff d i a).mp this

theorem skipNotLess_spec (a i : Nat) (d : ByFilter) (hi1 : 1 ≤ i) : ∀ (j : Nat),
    skipNotLess a i d j ≤ j ∧ (i ≤ j + 1 → i ≤ skipNotLess a i d j + 1) ∧
    (∀ y, skipNotLess a i d j < y → y ≤ j → keyAt d a ≤ keyAt d y) ∧
    (i ≤ skipNotLess a i d j → keyAt d (skipNotLess a i d j) < keyAt d a) := by
  intro j
  induction j with
  | zero =>
    rw [skipNotLess]
    exact ⟨le_refl _, fun h => h, fun y h1 h2 => by omega, fun h => by omega⟩
  | succ j ih =>
    rw [skipNotLess]
    split
    · rename_i hc
      obtain ⟨hij, hl⟩ := hc
      rw [not_Less_iff] at hl
      obtain ⟨h1, h2, h3, h4⟩ := ih
      refine ⟨by omega, fun _ => h2 (by omega), ?_, h4⟩
      intro y hy1 hy2
      by_cases hyj : y = j + 1
      · rw [hyj]; exact hl
      · exact h3 y hy1 (by omega)
    · rename_i hc
      refine ⟨le_refl _, fun h => by omega, fun y h1 h2 => by omega, fun h => ?_⟩
      have : ¬ ¬ d.Less (j + 1) a = true := fun hl => hc ⟨h, hl⟩
      exact (Less_iff d (j + 1) a).mp (not_not.mp this)

theorem partitionLoop_spec (a b : Nat) : ∀ (k i j : Nat) (d : ByFilter),
    a + 1 ≤ i → j < b → i ≤ j + 1 → b ≤ d.length → j + 1 - i ≤ k →
    (∀ x, a + 1 ≤ x → x < i → keyAt d x < keyAt d a) →
    (∀ y, j < y → y < b → keyAt d a ≤ keyAt d y) →
    Within (a + 1) b d (partitionLoop a k i j d).1 ∧
    a ≤ (partitionLoop a k i j d).2 ∧ (partitionLoop a k i j d).2 < b ∧
    (∀ x, a + 1 ≤ x → x ≤ (partitionLoop a k i j d).2 →
      keyAt (partitionLoop a k i j d).1 x < keyAt d a) ∧
    (∀ y, (partitionLoop a k i j d).2 < y → y < b →
      keyAt d a ≤ keyAt (partitionLoop a k i j d).1 y) := by
  intro k
  induction k with
  | zero =>
    intro i j d hi hj hij hb hk HL HR
    rw [partitionLoop]
    exact ⟨Within.refl _ _ _, by omega, hj, fun x h1 h2 => HL x h1 (by omega), HR⟩
  | succ k ih =>
    intro i j d hi hj hij hb hk HL HR
    rw [partitionLoop]
    obtain ⟨s1, s2, s3, s4⟩ := skipLess_spec a j d (j + 1 - i) i (le_refl _)
    generalize skipLess a j d (j + 1 - i) i = i1 at s1 s2 s3 s4 ⊢
    rw [max_eq_right hij] at s2
    obtain ⟨t1, t2, t3, t4⟩ := skipNotLess_spec a i1 d (by omega) j
    generalize skipNotLess a i1 d j = j1 at t1 t2 t3 t4 ⊢
    have t2 := t2 s2
    have HL1 : ∀ x, a + 1 ≤ x → x < i1 → keyAt d x < keyAt d a := by
      intro x h1 h2
      by_cases hx : x < i
      · exact HL x h1 hx
      · exact s3 x (by omega) h2
    have HR1 : ∀ y, j1 < y → y < b → keyAt d a ≤ keyAt d y := by
      intro y h1 h2
      by_cases hy : j < y
      · exact HR y hy h2
      · exact t3 y h1 (by omega)
    split
    · exact ⟨Within.refl _ _ _, by omega, by omega, fun x h1 h2 => HL1 x h1 (by omega), HR1⟩
    · rename_i hgt
      have hle : i1 ≤ j1 := by omega
      have k1 : keyAt d a ≤ keyAt d i1 := s4 (by omega)
      have k2 : keyAt d j1 < keyAt d a := t4 hle
      have hne : i1 ≠ j1 := by
        intro e
        rw [e] at k1
        exact absurd k2 (not_lt.mpr k1)
      have hk := fun x => keyAt_Swap d i1 j1 x (by omega) (by omega)
      have hw := Within_Swap (a + 1) b d i1 j1 (by omega) (by omega) (by omega) (by omega) hb
      have hka : keyAt (d.Swap i1 j1) a = keyAt d a := hw.key a (by omega)
      obtain ⟨r1, r2, r3, r4, r5⟩ := ih (i1 + 1) (j1 - 1) (d.Swap i1 j1) (by omega) (by omega)
        (by omega) (by rw [Swap_length]; exact hb) (by omega)
        (by
          intro x h1 h2
          rw [hka, hk x, if_neg (by omega)]
          by_cases hx : x = i1
          · rw [if_pos hx]; exact k2
          · rw [if_neg hx]; exact HL1 x h1 (by omega))
        (by
          intro y h1 h2
          rw [hka, hk y]
          by_cases hy : y = j1
          · rw [if_pos hy]; exact k1
          · rw [if_neg hy, if_neg (by omega)]; exact HR1 y (by omega) h2)
      rw [hka] at r4 r5
      exact ⟨hw.trans r1, r2, r3, r4, r5⟩

theorem partition_spec (d : ByFilter) (a b pivot : Nat) (hap : a ≤ pivot) (hpb : pivot < b)
    (hb : b ≤ d.length) :
    Within a b d (partition d a b pivot).1 ∧
    a ≤ (partition d a b pivot).2.1 ∧ (partition d a b pivot).2.1 < b ∧
    (∀ x, a ≤ x → x < (partition d a b pivot).2.1 →
      keyAt (partition d a b pivot).1 x ≤
        keyAt (partition d a b pivot).1 (partition d a b pivot).2.1) ∧
    (∀ y, (partition d a b pivot).2.1 < y → y < b →
      keyAt (partition d a b pivot).1 (partition d a b pivot).2.1 ≤
        keyAt (partition d a b pivot).1 y) := by
  unfold partition
  simp only []
  have hw0 := Within_Swap a b d a pivot (le_refl _) (by omega) hap hpb hb
  have hlen0 : (d.Swap a pivot).length = d.length := Swap_length _ _ _
  generalize d.Swap a pivot = d0 at hw0 hlen0 ⊢
  have hb0 : b ≤ d0.length := by omega
  obtain ⟨s1, s2, s3, s4⟩ := skipLess_spec a (b - 1) d0 (b - 1 + 1 - (a + 1)) (a + 1) (le_refl _)
  generalize skipLess a (b - 1) d0 (b - 1 + 1 - (a + 1)) (a + 1) = i1 at s1 s2 s3 s4 ⊢
  rw [max_eq_right (by omega)] at s2
  obtain ⟨t1, t2, t3, t4⟩ := skipNotLess_spec a i1 d0 (by omega) (b - 1)
  generalize skipNotLess a i1 d0 (b - 1) = j1 at t1 t2 t3 t4 ⊢
  have t2 := t2 s2
  -- the last step, shared by both branches
  have fin : ∀ (d1 : ByFilter) (j : Nat), Within (a + 1) b d0 d1 → a ≤ j → j < b →
      (∀ x, a + 1 ≤ x → x ≤ j → keyAt d1 x < keyAt d0 a) →
      (∀ y, j < y → y < b → keyAt d0 a ≤ keyAt d1 y) →
      Within a b d (d1.Swap j a) ∧ a ≤ j ∧ j < b ∧
      (∀ x, a ≤ x → x < j → keyAt (d1.Swap j a) x ≤ keyAt (d1.Swap j a) j) ∧
      (∀ y, j < y → y < b → keyAt (d1.Swap j a) j ≤ keyAt (d1.Swap j a) y) := by
    intro d1 j hw haj hjb HL HR
    have hl1 : d1.length = d0.length := hw.1
    have hk := fun x => keyAt_Swap d1 j a x (by omega) (by omega)
    have hka : keyAt d1 a = keyAt d0 a := hw.key a (by omega)
    refine ⟨hw0.trans ((hw.mono (by omega) (le_refl _)).trans
      (Within_Swap a b d1 j a haj hjb (le_refl _) (by omega) (by omega))), haj, hjb, ?_, ?_⟩
    · intro x h1 h2
      have hja : j ≠ a := by omega
      have ej : keyAt (d1.Swap j a) j = keyAt d0 a := by
        rw [hk j, if_neg hja, if_pos rfl, hka]
      rw [ej, hk x]
      by_cases hxa : x = a
      · rw [if_pos hxa]; exact le_of_lt (HL j (by omega) (le_refl _))
      · rw [if_neg hxa, if_neg (by omega)]; exact le_of_lt (HL x (by omega) (by omega))
    · intro y h1 h2
      have ej : keyAt (d1.Swap j a) j = keyAt d0 a := by
        rw [hk j]
        by_cases hja : j = a
        · rw [if_pos hja, hja, hka]
        · rw [if_neg hja, if_pos rfl, hka]
      rw [ej, hk y, if_neg (by omega), if_neg (by omega)]
      exact HR y h1 h2
  split
  · rename_i hgt
    exact fin d0 j1 (Within.refl _ _ _) (by omega) (by omega)
      (fun x h1 h2 => s3 x h1 (by omega)) (fun y h1 h2 => t3 y h1 (by omega))
  · rename_i hgt
    have hle : i1 ≤ j1 := by omega
    have k1 : keyAt d0 a ≤ keyAt d0 i1 := s4 (by omega)
    have k2 : keyAt d0 j1 < keyAt d0 a := t4 hle
    have hne : i1 ≠ j1 := by
      intro e
      rw [e] at k1
      exact absurd k2 (not_lt.mpr k1)
    have hk := fun x => keyAt_Swap d0 i1 j1 x (by omega) (by omega)
    have hw := Within_Swap (a + 1) b d0 i1 j1 (by omega) (by omega) (by omega) (by omega) hb0
    have hka : keyAt (d0.Swap i1 j1) a = keyAt d0 a := hw.key a (by omega)
    obtain ⟨r1, r2, r3, r4, r5⟩ := partitionLoop_spec a b (b - a) (i1 + 1) (j1 - 1)
      (d0.Swap i1 j1) (by omega) (by omega) (by omega) (by rw [Swap_length]; exact hb0)
      (by omega)
      (by
        intro x h1 h2
        rw [hka, hk x, if_neg (by omega)]
        by_cases hx : x = i1
        · rw [if_pos hx]; exact k2
        · rw [if_neg hx]; exact s3 x h1 (by omega))
      (by
        intro y h1 h2
        rw [hka, hk y]
        by_cases hy : y = j1
        · rw [if_pos hy]; exact k1
        · rw [if_neg hy, if_neg (by omega)]; exact t3 y (by omega) (by omega))
    rw [hka] at r4 r5
    exact fin _ _ (hw.trans r1) r2 r3 r4 r5

theorem skipNotGreater_spec (a j : Nat) (d : ByFilter) : ∀ (k i : Nat), j + 1 - i ≤ k →
    i ≤ skipNotGreater a j d k i ∧ skipNotGreater a j d k i ≤ max i (j + 1) ∧
    (∀ x, i ≤ x → x < skipNotGreater a j d k i → keyAt d x ≤ keyAt d a) ∧
    (skipNotGreater a j d k i ≤ j → keyAt d a < keyAt d (skipNotGreater a j d k i)) := by
  intro k
  induction k with
  | zero =>
    intro i hk
    rw [skipNotGreater]
    exact ⟨le_refl _, le_max_left _ _, fun x h1 h2 => by omega, fun h => by omega⟩
  | succ k ih =>
    intro i hk
    rw [skipNotGreater]
    split
    · rename_i hc
      obtain ⟨hij, hl⟩ := hc
      rw [not_Less_iff] at hl
      obtain ⟨h1, h2, h3, h4⟩ := ih (i + 1) (by omega)
      refine ⟨by omega, ?_, ?_, h4⟩
      · rw [max_eq_right (by omega)] at h2 ⊢
        exact h2
      · intro x hx1 hx2
        by_cases hxi : x = i
        · rw [hxi]; exact hl
        · exact h3 x (by omega) hx2
    · rename_i hc
      refine ⟨le_refl _, le_max_left _ _, fun x h1 h2 => by omega, fun h => ?_⟩
      have : ¬ ¬ d.Less a i = true := fun hl => hc ⟨h, hl⟩
      exact (Less_iff d a i).mp (not_not.mp this)

theorem skipGreater_spec (a i : Nat) (d : ByFilter) (hi1 : 1 ≤ i) : ∀ (j : Nat),
    skipGreater a i d j ≤ j ∧ (i ≤ j + 1 → i ≤ skipGreater a i d j + 1) ∧
    (∀ y, skipGreater a i d j < y → y ≤ j → keyAt d a < keyAt d y) ∧
    (i ≤ skipGreater a i d j → keyAt d (skipGreater a i d j) ≤ keyAt d a) := by
  intro j
  induction j with
  | zero =>
    rw [skipGreater]
    exact ⟨le_refl _, fun h => h, fun y h1 h2 => by omega, fun h => by omega⟩
  | succ j ih =>
    rw [skipGreater]
    split
    · rename_i hc
      obtain ⟨hij, hl⟩ := hc
      rw [Less_iff] at hl
      obtain ⟨h1, h2, h3, h4⟩ := ih
      refine ⟨by omega, fun _ => h2 (by omega), ?_, h4⟩
      intro y hy1 hy2
      by_cases hyj : y = j + 1
      · rw [hyj]; exact hl
      · exact h3 y hy1 (by omega)
    · rename_i hc
      refine ⟨le_refl _, fun h => by omega, fun y h1 h2 => by omega, fun h => ?_⟩
      have : ¬ d.Less a (j + 1) = true := fun hl => hc ⟨h, hl⟩
      exact (not_Less_iff d a (j + 1)).mp this

theorem partitionEqualLoop_spec (a b : Nat) : ∀ (k i j : Nat) (d : ByFilter),
    a + 1 ≤ i → j < b → i ≤ j + 1 → b ≤ d.length → j + 1 - i ≤ k →
    (∀ x, a + 1 ≤ x → x < i → keyAt d x ≤ keyAt d a) →
    (∀ y, j < y → y < b → keyAt d a < keyAt d y) →
    Within (a + 1) b d (partitionEqualLoop a k i j d).1 ∧
    a + 1 ≤ (partitionEqualLoop a k i j d).2 ∧ (partitionEqualLoop a k i j d).2 ≤ b ∧
    (∀ x, a + 1 ≤ x → x < (partitionEqualLoop a k i j d).2 →
      keyAt (partitionEqualLoop a k i j d).1 x ≤ keyAt d a) ∧
    (∀ y, (partitionEqualLoop a k i j d).2 ≤ y → y < b →
      keyAt d a < keyAt (partitionEqualLoop a k i j d).1 y) := by
  intro k
  induction k with
  | zero =>
    intro i j d hi hj hij hb hk HL HR
    rw [partitionEqualLoop]
    exact ⟨Within.refl _ _ _, hi, by omega, HL, fun y h1 h2 => HR y (by omega) h2⟩
  | succ k ih =>
    intro i j d hi hj hij hb hk HL HR
    rw [partitionEqualLoop]
    obtain ⟨s1, s2, s3, s4⟩ := skipNotGreater_spec a j d (j + 1 - i) i (le_refl _)
    generalize skipNotGreater a j d (j + 1 - i) i = i1 at s1 s2 s3 s4 ⊢
    rw [max_eq_right hij] at s2
    obtain ⟨t1, t2, t3, t4⟩ := skipGreater_spec a i1 d (by omega) j
    generalize skipGreater a i1 d j = j1 at t1 t2 t3 t4 ⊢
    have t2 := t2 s2
    have HL1 : ∀ x, a + 1 ≤ x → x < i1 → keyAt d x ≤ keyAt d a := by
      intro x h1 h2
      by_cases hx : x < i
      · exact HL x h1 hx
      · exact s3 x (by omega) h2
    have HR1 : ∀ y, j1 < y → y < b → keyAt d a < keyAt d y := by
      intro y h1 h2
      by_cases hy : j < y
      · exact HR y hy h2
      · exact t3 y h1 (by omega)
    split
    · exact ⟨Within.refl _ _ _, by omega, by omega, HL1, fun y h1 h2 => HR1 y (by omega) h2⟩
    · rename_i hgt
      have hle : i1 ≤ j1 := by omega
      have k1 : keyAt d a < keyAt d i1 := s4 (by omega)
      have k2 : keyAt d j1 ≤ keyAt d a := t4 hle
      have hne : i1 ≠ j1 := by
        intro e
        rw [e] at k1
        exact absurd k1 (not_lt.mpr k2)
      have hk := fun x => keyAt_Swap d i1 j1 x (by omega) (by omega)
      have hw := Within_Swap (a + 1) b d i1 j1 (by omega) (by omega) (by omega) (by omega) hb
      have hka : keyAt (d.Swap i1 j1) a = keyAt d a := hw.key a (by omega)
      obtain ⟨r1, r2, r3, r4, r5⟩ := ih (i1 + 1) (j1 - 1) (d.Swap i1 j1) (by omega) (by omega)
        (by omega) (by rw [Swap_length]; exact hb) (by omega)
        (by
          intro x h1 h2
          rw [hka, hk x, if_neg (by omega)]
          by_cases hx : x = i1
          · rw [if_pos hx]; exact k2
          · rw [if_neg hx]; exact HL1 x h1 (by omega))
        (by
          intro y h1 h2
          rw [hka, hk y]
          by_cases hy : y = j1
          · rw [if_pos hy]; exact k1
          · rw [if_neg hy, if_neg (by omega)]; exact HR1 y (by omega) h2)
      rw [hka] at r4 r5
      exact ⟨hw.trans r1, by omega, r3, r4, r5⟩

theorem partitionEqual_spec (d : ByFilter) (a b pivot : Nat) (hap : a ≤ pivot) (hpb : pivot < b)
    (hb : b ≤ d.length) (hmin : ∀ x, a ≤ x → x < b → keyAt d pivot ≤ keyAt d x) :
    Within a b d (partitionEqual d a b pivot).1 ∧
    a + 1 ≤ (partitionEqual d a b pivot).2 ∧ (partitionEqual d a b pivot).2 ≤ b ∧
    (∀ x, a ≤ x → x < (partitionEqual d a b pivot).2 →
      keyAt (partitionEqual d a b pivot).1 x = keyAt d pivot) ∧
    (∀ y, (partitionEqual d a b pivot).2 ≤ y → y < b →
      keyAt d pivot < keyAt (partitionEqual d a b pivot).1 y) := by
  unfold partitionEqual
  simp only []
  have hw0 := Within_Swap a b d a pivot (le_refl _) (by omega) hap hpb hb
  have hlen0 : (d.Swap a pivot).length = d.length := Swap_length _ _ _
  have hka0 : keyAt (d.Swap a pivot) a = keyAt d pivot := by
    rw [keyAt_Swap d a pivot a (by omega) (by omega)]
    by_cases h : a = pivot
    · rw [if_pos h, h]
    · rw [if_neg h, if_pos rfl]
  generalize d.Swap a pivot = d0 at hw0 hlen0 hka0 ⊢
  obtain ⟨r1, r2, r3, r4, r5⟩ := partitionEqualLoop_spec a b (b - a) (a + 1) (b - 1) d0
    (le_refl _) (by omega) (by omega) (by omega) (by omega)
    (fun x h1 h2 => by omega) (fun y h1 h2 => by omega)
  rw [hka0] at r4 r5
  have hwt := hw0.trans (r1.mono (by omega) (le_refl _))
  have hmin1 := hwt.2.2 (fun e => keyAt d pivot ≤ e.Filter) hmin
  refine ⟨hwt, r2, r3, ?_, r5⟩
  intro x h1 h2
  by_cases hxa : x = a
  · rw [hxa, r1.key a (by omega), hka0]
  · exact le_antisymm (r4 x (by omega) h2) (hmin1 x h1 (by omega))

theorem order2_mem (d : ByFilter) (x y s : Nat) :
    ((order2 d x y s).1 = x ∨ (order2 d x y s).1 = y) ∧
    ((order2 d x y s).2.1 = x ∨ (order2 d x y s).2.1 = y) := by
  unfold order2
  split
  · exact ⟨Or.inr rfl, Or.inl rfl⟩
  · exact ⟨Or.inl rfl, Or.inr rfl⟩

theorem median_mem (d : ByFilter) (x y z s : Nat) :
    (median d x y z s).1 = x ∨ (median d x y z s).1 = y ∨ (median d x y z s).1 = z := by
  unfold median
  simp only []
  have h1 := order2_mem d x y s
  generalize order2 d x y s = r1 at h1 ⊢
  have h2 := order2_mem d r1.2.1 z r1.2.2
  generalize order2 d r1.2.1 z r1.2.2 = r2 at h2 ⊢
  have h3 := order2_mem d r1.1 r2.1 r2.2.2
  generalize order2 d r1.1 r2.1 r2.2.2 = r3 at h3 ⊢
  rcases h3.2 with h | h
  · rw [h]
    rcases h1.1 with e | e
    · exact Or.inl e
    · exact Or.inr (Or.inl e)
  · rw [h]
    rcases h2.1 with e | e
    · rw [e]
      rcases h1.2 with e1 | e1
      · exact Or.inl e1
      · exact Or.inr (Or.inl e1)
    · exact Or.inr (Or.inr e)

theorem median_range (d : ByFilter) (x y z s lo hi : Nat) (hx : lo ≤ x ∧ x < hi)
    (hy : lo ≤ y ∧ y < hi) (hz : lo ≤ z ∧ z < hi) :
    lo ≤ (median d x y z s).1 ∧ (median d x y z s).1 < hi := by
  rcases median_mem d x y z s with h | h | h <;> rw [h] <;> assumption

theorem choosePivot_range (d : ByFilter) (a b : Nat) (hab : 8 ≤ b - a) :
    a ≤ (choosePivot d a b).1 ∧ (choosePivot d a b).1 < b := by
  unfold choosePivot
  simp only []
  have key : ∀ r : Nat × Nat, (a ≤ r.1 ∧ r.1 < b) →
      a ≤ (if r.2 = 0 then (r.1, sortedHint.increasingHint)
        else if r.2 = 12 then (r.1, sortedHint.decreasingHint)
        else (r.1, sortedHint.unknownHint)).1 ∧
      (if r.2 = 0 then (r.1, sortedHint.increasingHint)
        else if r.2 = 12 then (r.1, sortedHint.decreasingHint)
        else (r.1, sortedHint.unknownHint)).1 < b := by
    intro r hr
    split_ifs <;> exact hr
  apply key
  rw [if_pos hab]
  split
  · rename_i h50
    apply median_range d _ _ _ _ a b
    · exact median_range d _ _ _ _ a b ⟨by omega, by omega⟩ ⟨by omega, by omega⟩
        ⟨by omega, by omega⟩
    · exact median_range d _ _ _ _ a b ⟨by omega, by omega⟩ ⟨by omega, by omega⟩
        ⟨by omega, by omega⟩
    · exact median_range d _ _ _ _ a b ⟨by omega, by omega⟩ ⟨by omega, by omega⟩
        ⟨by omega, by omega⟩
  · exact median_range d _ _ _ _ a b ⟨by omega, by omega⟩ ⟨by omega, by omega⟩
      ⟨by omega, by omega⟩

theorem reverseRangeLoop_within (a b : Nat) : ∀ (k i j : Nat) (d : ByFilter),
    a ≤ i → j < b → b ≤ d.length → Within a b d (reverseRangeLoop k i j d) := by
  intro k
  induction k with
  | zero => intro i j d _ _ _; exact Within.refl _ _ _
  | succ k ih =>
    intro i j d hi hj hb
    rw [reverseRangeLoop]
    split
    · exact (Within_Swap a b d i j hi (by omega) (by omega) hj hb).trans
        (ih (i + 1) (j - 1) _ (by omega) (by omega) (by rw [Swap_length]; exact hb))
    · exact Within.refl _ _ _

theorem reverseRange_within (d : ByFilter) (a b : Nat) (hab : a < b) (hb : b ≤ d.length) :
    Within a b d (reverseRange d a b) :=
  reverseRangeLoop_within a b _ _ _ d (le_refl _) (by omega) hb

theorem bitLenLoop_pow_le : ∀ (fuel m : Nat), m ≤ fuel → m ≠ 0 →
    2 ^ bitLenLoop fuel m ≤ 2 * m := by
  intro fuel
  induction fuel with
  | zero => intro m h1 h2; omega
  | succ fuel ih =>
    intro m h1 h2
    rw [bitLenLoop, if_neg h2, pow_succ]
    by_cases h0 : m / 2 = 0
    · rw [h0]
      have : bitLenLoop fuel 0 = 0 := by
        cases fuel with
        | zero => rfl
        | succ f => rw [bitLenLoop]; simp
      rw [this]
      omega
    · have := ih (m / 2) (by omega) h0
      omega

theorem breakPatternsLoop_within (a b length modulus idx : Nat) (d0 : ByFilter)
    (hidx1 : a ≤ idx) (hidx2 : idx + 2 < b) (hlen : a + length ≤ b)
    (hmod : modulus ≤ 2 * length) (hb : b ≤ d0.length) (hl : 0 < length) :
    ∀ (k i random : Nat) (d : ByFilter), i + k ≤ 3 → Within a b d0 d →
      Within a b d0 (breakPatternsLoop a length modulus idx k i random d) := by
  intro k
  induction k with
  | zero => intro i random d _ hw; exact hw
  | succ k ih =>
    intro i random d hik hw
    rw [breakPatternsLoop]
    apply ih _ _ _ (by omega)
    have hb1 : b ≤ d.length := by rw [hw.1]; exact hb
    have hand : xorshiftNext random &&& (modulus - 1) ≤ modulus - 1 := Nat.and_le_right
    refine hw.trans (Within_Swap a b d _ _ (by omega) (by omega) (by omega) ?_ hb1)
    split <;> omega

theorem breakPatterns_within (d : ByFilter) (a b : Nat) (hab : a ≤ b) (hb : b ≤ d.length) :
    Within a b d (breakPatterns d a b) := by
  unfold breakPatterns
  simp only []
  split
  · rename_i h8
    have hp : 2 ^ bitLen (b - a) ≤ 2 * (b - a) :=
      bitLenLoop_pow_le (b - a) (b - a) (le_refl _) (by omega)
    exact breakPatternsLoop_within a b (b - a) (nextPowerOfTwo (b - a))
      (a + (b - a) / 4 * 2 - 1) d (by omega) (by omega) (by omega) hp hb (by omega)
      3 0 (b - a) d (by omega) (Within.refl _ _ _)
  · exact Within.refl _ _ _

theorem leftBound_of_within {a b : Nat} {d d1 : ByFilter} (hw : Within a b d d1)
    (hpre : 0 < a → ∀ x, a ≤ x → x < b → keyAt d (a - 1) ≤ keyAt d x) :
    0 < a → ∀ x, a ≤ x → x < b → keyAt d1 (a - 1) ≤ keyAt d1 x := by
  intro ha x h1 h2
  rw [hw.key (a - 1) (by omega)]
  exact hw.2.2 (fun e => keyAt d (a - 1) ≤ e.Filter) (hpre ha) x h1 h2

theorem shiftSmaller_spec (a top : Nat) : ∀ (j : Nat) (d : ByFilter),
    a ≤ j → j ≤ top → top < d.length →
    (0 < a → ∀ x, a ≤ x → x < top + 1 → keyAt d (a - 1) ≤ keyAt d x) →
    (∀ x y, a ≤ x → x ≤ y → y ≤ top → x ≠ j → y ≠ j → keyAt d x ≤ keyAt d y) →
    (∀ y, j < y → y ≤ top → keyAt d j ≤ keyAt d y) →
    Within a (top + 1) d (shiftSmaller j d) ∧ SortedOn (shiftSmaller j d) a (top + 1) := by
  intro j
  induction j with
  | zero =>
    intro d ha _ _ _ H1 H2
    refine ⟨Within.refl _ _ _, fun x y hx hxy hy => ?_⟩
    rw [shiftSmaller]
    by_cases hx0 : x = 0
    · by_cases hy0 : y = 0
      · rw [hx0, hy0]
      · rw [hx0]; exact H2 y (by omega) (by omega)
    · exact H1 x y hx hxy (by omega) hx0 (by omega)
  | succ j ih =>
    intro d ha hjt ht hpre H1 H2
    rw [shiftSmaller]
    split
    · rename_i hnl
      rw [not_Less_iff] at hnl
      refine ⟨Within.refl _ _ _, fun x y hx hxy hy => ?_⟩
      by_cases hx1 : x = j + 1
      · by_cases hy1 : y = j + 1
        · rw [hx1, hy1]
        · rw [hx1]; exact H2 y (by omega) (by omega)
      · by_cases hy1 : y = j + 1
        · rw [hy1]
          by_cases hxj : x = j
          · rw [hxj]; exact hnl
          · exact le_trans (H1 x j hx (by omega) (by omega) hx1 (by omega)) hnl
        · exact H1 x y hx hxy (by omega) hx1 hy1
    · rename_i hl
      have hless : keyAt d (j + 1) < keyAt d j := (Less_iff d (j + 1) j).mp (not_not.mp hl)
      have hja : a < j + 1 := by
        by_contra hcon
        have haj : a = j + 1 := by omega
        have := hpre (by omega) (j + 1) (by omega) (by omega)
        rw [haj] at this
        simp only [Nat.add_sub_cancel] at this
        exact absurd hless (not_lt.mpr this)
      have hk := fun k => keyAt_Swap d (j + 1) j k (by omega) (by omega)
      have hw := Within_Swap a (top + 1) d (j + 1) j (by omega) (by omega) (by omega)
        (by omega) (by omega)
      have hrec := ih (d.Swap (j + 1) j) (by omega) (by omega)
        (by rw [Swap_length]; exact ht)
        (leftBound_of_within hw hpre)
        (by
          intro x y hx hxy hy hxj hyj
          rw [hk x, hk y, if_neg hxj, if_neg hyj]
          by_cases hx1 : x = j + 1
          · rw [if_pos hx1]
            by_cases hy1 : y = j + 1
            · rw [if_pos hy1]
            · rw [if_neg hy1]
              exact H1 j y (by omega) (by omega) hy (by omega) hy1
          · rw [if_neg hx1]
            by_cases hy1 : y = j + 1
            · rw [if_pos hy1]
              exact H1 x j hx (by omega) (by omega) hx1 (by omega)
            · rw [if_neg hy1]
              exact H1 x y hx hxy hy hx1 hy1)
        (by
          intro y hjy hy
          rw [hk j, hk y, if_pos rfl, if_neg (by omega)]
          by_cases hy1 : y = j + 1
          · rw [if_pos hy1]; exact le_of_lt hless
          · rw [if_neg hy1]; exact H2 y (by omega) hy)
      exact ⟨hw.trans hrec.1, hrec.2⟩

theorem shiftGreater_within (lo b : Nat) : ∀ (k j : Nat) (d : ByFilter),
    lo + 1 ≤ j → b ≤ d.length → Within lo b d (shiftGreater b k j d) := by
  intro k
  induction k with
  | zero => intro j d _ _; exact Within.refl _ _ _
  | succ k ih =>
    intro j d hj hb
    rw [shiftGreater]
    split
    · split
      · exact Within.refl _ _ _
      · exact (Within_Swap lo b d j (j - 1) (by omega) (by omega) (by omega) (by omega)
          hb).trans (ih (j + 1) _ (by omega) (by rw [Swap_length]; exact hb))
    · exact Within.refl _ _ _

theorem scanInOrder_spec (a b : Nat) (d : ByFilter) : ∀ (k i : Nat),
    a + 1 ≤ i → i ≤ b → SortedOn d a i →
    i ≤ scanInOrder b k i d ∧ scanInOrder b k i d ≤ b ∧
      SortedOn d a (scanInOrder b k i d) := by
  intro k
  induction k with
  | zero => intro i _ hib hs; rw [scanInOrder]; exact ⟨le_refl _, hib, hs⟩
  | succ k ih =>
    intro i hai hib hs
    rw [scanInOrder]
    split
    · rename_i hc
      obtain ⟨hlt, hnl⟩ := hc
      rw [not_Less_iff] at hnl
      have hs1 : SortedOn d a (i + 1) := by
        intro x y hx hxy hy
        by_cases hyi : y = i
        · by_cases hxi : x = i
          · rw [hxi, hyi]
          · rw [hyi]
            exact le_trans (hs x (i - 1) hx (by omega) (by omega)) hnl
        · exact hs x y hx hxy (by omega)
      obtain ⟨h1, h2, h3⟩ := ih (i + 1) (by omega) (by omega) hs1
      exact ⟨by omega, h2, h3⟩
    · exact ⟨le_refl _, hib, hs⟩

theorem partialInsertionSortLoop_spec (a b : Nat) : ∀ (k i : Nat) (d : ByFilter),
    a + 1 ≤ i → i ≤ b → b ≤ d.length → SortedOn d a i →
    (0 < a → ∀ x, a ≤ x → x < b → keyAt d (a - 1) ≤ keyAt d x) →
    Within a b d (partialInsertionSortLoop a b k i d).1 ∧
    ((partialInsertionSortLoop a b k i d).2 = true →
      SortedOn (partialInsertionSortLoop a b k i d).1 a b) := by
  intro k
  induction k with
  | zero =>
    intro i d _ _ _ _ _
    rw [partialInsertionSortLoop]
    exact ⟨Within.refl _ _ _, fun h => by simp at h⟩
  | succ k ih =>
    intro i d hai hib hb hs hpre
    rw [partialInsertionSortLoop]
    simp only []
    obtain ⟨s1, s2, s3⟩ := scanInOrder_spec a b d (b - i) i hai hib hs
    generalize scanInOrder b (b - i) i d = i1 at s1 s2 s3 ⊢
    split
    · rename_i he
      exact ⟨Within.refl _ _ _, fun _ => he ▸ s3⟩
    · rename_i hne
      split
      · exact ⟨Within.refl _ _ _, fun h => by simp at h⟩
      · have hi1b : i1 < b := by omega
        have hw1 := Within_Swap a b d i1 (i1 - 1) (by omega) hi1b (by omega) (by omega) hb
        have hl1 : (d.Swap i1 (i1 - 1)).length = d.length := Swap_length _ _ _
        have hk1 := fun x => keyAt_Swap d i1 (i1 - 1) x (by omega) (by omega)
        have hpre1 := leftBound_of_within hw1 hpre
        -- after the swap, d[a : i1-1] is still in order
        have hs1 : ∀ x y, a ≤ x → x ≤ y → y < i1 - 1 →
            keyAt (d.Swap i1 (i1 - 1)) x ≤ keyAt (d.Swap i1 (i1 - 1)) y := by
          intro x y hx hxy hy
          rw [hk1 x, hk1 y, if_neg (by omega), if_neg (by omega), if_neg (by omega),
            if_neg (by omega)]
          exact s3 x y hx hxy (by omega)
        generalize d.Swap i1 (i1 - 1) = d1 at hw1 hl1 hpre1 hs1 ⊢
        -- the smaller one shifted to the left
        have h2 : Within a b d1
            (if i1 - a ≥ 2 then shiftSmaller (i1 - 1) d1 else d1) ∧
            SortedOn (if i1 - a ≥ 2 then shiftSmaller (i1 - 1) d1 else d1) a i1 := by
          split
          · have hsp := shiftSmaller_spec a (i1 - 1) (i1 - 1) d1 (by omega) (le_refl _)
              (by omega)
              (fun ha x h1 h2 => hpre1 ha x h1 (by omega))
              (fun x y hx hxy hy hxj hyj => hs1 x y hx hxy (by omega))
              (fun y h1 h2 => by omega)
            have e : i1 - 1 + 1 = i1 := by omega
            rw [e] at hsp
            exact ⟨hsp.1.mono (le_refl _) (by omega), hsp.2⟩
          · refine ⟨Within.refl _ _ _, fun x y hx hxy hy => ?_⟩
            have : x = y := by omega
            rw [this]
        obtain ⟨hw2, hs2⟩ := h2
        generalize (if i1 - a ≥ 2 then shiftSmaller (i1 - 1) d1 else d1) = d2 at hw2 hs2 ⊢
        have hl2 : d2.length = d.length := by rw [hw2.1, hl1]
        -- the greater one shifted to the right
        have h3 : Within i1 b d2
            (if b - i1 ≥ 2 then shiftGreater b (b - (i1 + 1)) (i1 + 1) d2 else d2) := by
          split
          · exact shiftGreater_within i1 b _ _ d2 (le_refl _) (by omega)
          · exact Within.refl _ _ _
        generalize (if b - i1 ≥ 2 then shiftGreater b (b - (i1 + 1)) (i1 + 1) d2 else d2)
          = d3 at h3 ⊢
        have hw3 : Within a b d d3 := hw1.trans (hw2.trans (h3.mono (by omega) (le_refl _)))
        have hs3 : SortedOn d3 a i1 := by
          intro x y hx hxy hy
          rw [h3.key x (by omega), h3.key y (by omega)]
          exact hs2 x y hx hxy hy
        obtain ⟨r1, r2⟩ := ih i1 d3 (by omega) s2 (by rw [hw3.1]; exact hb) hs3
          (leftBound_of_within hw3 hpre)
        exact ⟨hw3.trans r1, r2⟩

theorem partialInsertionSort_spec (d : ByFilter) (a b : Nat) (hab : a < b)
    (hb : b ≤ d.length)
    (hpre : 0 < a → ∀ x, a ≤ x → x < b → keyAt d (a - 1) ≤ keyAt d x) :
    Within a b d (partialInsertionSort d a b).1 ∧
    ((partialInsertionSort d a b).2 = true → SortedOn (partialInsertionSort d a b).1 a b) :=
  partialInsertionSortLoop_spec a b 5 (a + 1) d (le_refl _) hab hb
    (fun x y hx hxy hy => by
      have : x = y := by omega
      rw [this]) hpre

theorem siftDownLoop_spec (hi first lo : Nat) : ∀ (k root : Nat) (d : ByFilter),
    lo ≤ root → hi ≤ root + k → first + hi ≤ d.length →
    (∀ x c, lo ≤ x → x ≠ root → c < hi → (c = 2 * x + 1 ∨ c = 2 * x + 2) →
      keyAt d (first + c) ≤ keyAt d (first + x)) →
    (∀ p c, lo ≤ p → (root = 2 * p + 1 ∨ root = 2 * p + 2) → c < hi →
      (c = 2 * root + 1 ∨ c = 2 * root + 2) → keyAt d (first + c) ≤ keyAt d (first + p)) →
    Within (first + lo) (first + hi) d (siftDownLoop hi first k root d) ∧
      HeapFrom (siftDownLoop hi first k root d) first lo hi := by
  intro k
  induction k with
  | zero =>
    intro root d hlo hk hb A B
    rw [siftDownLoop]
    refine ⟨Within.refl _ _ _, fun x c hx hc hcx => ?_⟩
    exact A x c hx (by omega) hc hcx
  | succ k ih =>
    intro root d hlo hk hb A B
    rw [siftDownLoop]
    simp only []
    split
    · rename_i hge
      refine ⟨Within.refl _ _ _, fun x c hx hc hcx => ?_⟩
      exact A x c hx (by omega) hc hcx
    · rename_i hlt
      have hc1 : 2 * root + 1 < hi := by omega
      -- the child with the greater key
      have hmax : ∃ ch, (if 2 * root + 1 + 1 < hi ∧
            d.Less (first + (2 * root + 1)) (first + (2 * root + 1) + 1) = true
          then 2 * root + 1 + 1 else 2 * root + 1) = ch ∧
          (ch = 2 * root + 1 ∨ ch = 2 * root + 2) ∧ ch < hi ∧
          ∀ c, c < hi → (c = 2 * root + 1 ∨ c = 2 * root + 2) →
            keyAt d (first + c) ≤ keyAt d (first + ch) := by
        split
        · rename_i hc
          obtain ⟨h2, hl⟩ := hc
          rw [Less_iff] at hl
          refine ⟨_, rfl, Or.inr rfl, h2, fun c hc hcc => ?_⟩
          rcases hcc with e | e
          · rw [e]; exact le_of_lt hl
          · rw [e]
        · rename_i hc
          refine ⟨_, rfl, Or.inl rfl, hc1, fun c hc' hcc => ?_⟩
          rcases hcc with e | e
          · rw [e]
          · rw [e]
            have : ¬ d.Less (first + (2 * root + 1)) (first + (2 * root + 1) + 1) = true :=
              fun hl => hc ⟨by omega, hl⟩
            rw [not_Less_iff] at this
            exact this
      obtain ⟨ch, hch, hch1, hch2, hch3⟩ := hmax
      rw [hch]
      split
      · rename_i hnl
        rw [not_Less_iff] at hnl
        refine ⟨Within.refl _ _ _, fun x c hx hc hcx => ?_⟩
        by_cases hxr : x = root
        · rw [hxr]
          exact le_trans (hch3 c hc (by omega)) hnl
        · exact A x c hx hxr hc hcx
      · rename_i hl
        have hless : keyAt d (first + root) < keyAt d (first + ch) :=
          (Less_iff d _ _).mp (not_not.mp hl)
        have hk : ∀ z, keyAt (d.Swap (first + root) (first + ch)) (first + z) =
            if z = ch then keyAt d (first + root)
            else if z = root then keyAt d (first + ch) else keyAt d (first + z) := by
          intro z
          rw [keyAt_Swap d (first + root) (first + ch) (first + z) (by omega) (by omega)]
          simp only [Nat.add_left_cancel_iff]
        have hw := Within_Swap (first + lo) (first + hi) d (first + root) (first + ch)
          (by omega) (by omega) (by omega) (by omega) hb
        have hrch : root ≠ ch := by omega
        have hrec := ih ch (d.Swap (first + root) (first + ch)) (by omega) (by omega)
          (by rw [Swap_length]; exact hb)
          (by
            intro x c hx hxch hc hcx
            by_cases hxr : x = root
            · have ex : keyAt (d.Swap (first + root) (first + ch)) (first + x)
                  = keyAt d (first + ch) := by
                rw [hk x, if_neg hxch, if_pos hxr]
              rw [ex]
              by_cases hcch : c = ch
              · rw [hk c, if_pos hcch]; exact le_of_lt hless
              · rw [hk c, if_neg hcch, if_neg (by omega)]
                exact hch3 c hc (by omega)
            · have ex : keyAt (d.Swap (first + root) (first + ch)) (first + x)
                  = keyAt d (first + x) := by
                rw [hk x, if_neg hxch, if_neg hxr]
              rw [ex]
              by_cases hcr : c = root
              · rw [hk c, if_neg (by omega), if_pos hcr]
                exact B x ch hx (by omega) hch2 hch1
              · rw [hk c, if_neg (by omega), if_neg hcr]
                exact A x c hx hxr hc hcx)
          (by
            intro p c hp hpc hc hcc
            have hpr : p = root := by omega
            rw [hk c, if_neg (by omega), if_neg (by omega), hk p, if_neg (by omega),
              if_pos hpr]
            exact A ch c (by omega) (by omega) hc hcc)
        exact ⟨hw.trans hrec.1, hrec.2⟩

theorem siftDown_spec (d : ByFilter) (lo hi first : Nat) (hb : first + hi ≤ d.length)
    (hh : HeapFrom d first (lo + 1) hi) :
    Within (first + lo) (first + hi) d (siftDown d lo hi first) ∧
      HeapFrom (siftDown d lo hi first) first lo hi :=
  siftDownLoop_spec hi first lo hi lo d (le_refl _) (by omega) hb
    (fun x c hx hxr hc hcx => hh x c (by omega) hc hcx)
    (fun p c hp hpc hc hcc => by omega)

theorem heapSortBuild_spec (hi first : Nat) : ∀ (i : Nat) (d : ByFilter),
    first + hi ≤ d.length → HeapFrom d first (i + 1) hi →
    Within first (first + hi) d (heapSortBuild hi first i d) ∧
      HeapFrom (heapSortBuild hi first i d) first 0 hi := by
  intro i
  induction i with
  | zero =>
    intro d hb hh
    rw [heapSortBuild]
    exact siftDown_spec d 0 hi first hb hh
  | succ i ih =>
    intro d hb hh
    rw [heapSortBuild]
    obtain ⟨w1, h1⟩ := siftDown_spec d (i + 1) hi first hb hh
    obtain ⟨w2, h2⟩ := ih (siftDown d (i + 1) hi first) (by rw [w1.1]; exact hb) h1
    exact ⟨(w1.mono (by omega) (le_refl _)).trans w2, h2⟩

theorem heap_root_max (d : ByFilter) (first m : Nat) (hh : HeapFrom d first 0 m) :
    ∀ x, x < m → keyAt d (first + x) ≤ keyAt d (first + 0) := by
  intro x
  induction x using Nat.strong_induction_on with
  | _ x ih =>
    intro hx
    by_cases h0 : x = 0
    · rw [h0]
    · have hp := ih ((x - 1) / 2) (by omega) (by omega)
      exact le_trans (hh ((x - 1) / 2) x (Nat.zero_le _) hx (by omega)) hp

theorem heapSortPop_step (d : ByFilter) (first hi i : Nat) (hi1 : i + 1 ≤ hi)
    (hb : first + hi ≤ d.length) (hh : HeapFrom d first 0 (i + 1))
    (hs : SortedOn d (first + (i + 1)) (first + hi))
    (hbd : ∀ x y, x < i + 1 → i + 1 ≤ y → y < hi →
      keyAt d (first + x) ≤ keyAt d (first + y)) :
    Within first (first + hi) d (siftDown (d.Swap first (first + i)) 0 i first) ∧
    HeapFrom (siftDown (d.Swap first (first + i)) 0 i first) first 0 i ∧
    SortedOn (siftDown (d.Swap first (first + i)) 0 i first) (first + i) (first + hi) ∧
    (∀ x y, x < i → i ≤ y → y < hi →
      keyAt (siftDown (d.Swap first (first + i)) 0 i first) (first + x) ≤
        keyAt (siftDown (d.Swap first (first + i)) 0 i first) (first + y)) := by
  have hmax := heap_root_max d first (i + 1) hh
  have hk := fun x => keyAt_Swap d first (first + i) x (by omega) (by omega)
  have hw1 := Within_Swap first (first + hi) d first (first + i) (le_refl _) (by omega)
    (by omega) (by omega) hb
  have hl1 : (d.Swap first (first + i)).length = d.length := Swap_length _ _ _
  -- keys after the swap
  have k_i : keyAt (d.Swap first (first + i)) (first + i) = keyAt d (first + 0) := by
    rw [hk (first + i), if_pos rfl]; rfl
  have k_hi : ∀ y, i < y → keyAt (d.Swap first (first + i)) (first + y) = keyAt d (first + y) :=
    fun y hy => by rw [hk (first + y), if_neg (by omega), if_neg (by omega)]
  have k_lo : ∀ x, x < i → ∃ z, z < i + 1 ∧
      keyAt (d.Swap first (first + i)) (first + x) = keyAt d (first + z) := by
    intro x hx
    by_cases hx0 : x = 0
    · refine ⟨i, by omega, ?_⟩
      rw [hx0, hk (first + 0), if_neg (by omega), if_pos (by omega)]
    · refine ⟨x, by omega, ?_⟩
      rw [hk (first + x), if_neg (by omega), if_neg (by omega)]
  have hh1 : HeapFrom (d.Swap first (first + i)) first (0 + 1) i := by
    intro x c hx hc hcx
    rw [hk (first + c), hk (first + x), if_neg (by omega), if_neg (by omega),
      if_neg (by omega), if_neg (by omega)]
    exact hh x c (Nat.zero_le _) (by omega) hcx
  generalize d.Swap first (first + i) = d1 at hw1 hl1 k_i k_hi k_lo hh1 ⊢
  obtain ⟨w2, h2⟩ := siftDown_spec d1 0 i first (by omega) hh1
  simp only [Nat.add_zero] at w2
  have key_ge : ∀ y, i ≤ y → keyAt (siftDown d1 0 i first) (first + y) = keyAt d1 (first + y) :=
    fun y hy => w2.key (first + y) (by omega)
  refine ⟨hw1.trans (w2.mono (le_refl _) (by omega)), h2, ?_, ?_⟩
  · intro x y hx hxy hy
    obtain ⟨x1, rfl⟩ : ∃ x1, x = first + x1 := ⟨x - first, by omega⟩
    obtain ⟨y1, rfl⟩ : ∃ y1, y = first + y1 := ⟨y - first, by omega⟩
    rw [key_ge x1 (by omega), key_ge y1 (by omega)]
    by_cases hxi : x1 = i
    · by_cases hyi : y1 = i
      · rw [hxi, hyi]
      · rw [hxi, k_i, k_hi y1 (by omega)]
        exact hbd 0 y1 (by omega) (by omega) (by omega)
    · rw [k_hi x1 (by omega), k_hi y1 (by omega)]
      exact hs _ _ (by omega) (by omega) (by omega)
  · intro x y hx hy1 hy2
    rw [key_ge y hy1]
    have hP : ∀ z, first ≤ z → z < first + i → (d1.at z).Filter ≤ keyAt d1 (first + y) := by
      intro z hz1 hz2
      obtain ⟨z1, rfl⟩ : ∃ z1, z = first + z1 := ⟨z - first, by omega⟩
      obtain ⟨z2, hz3, hz4⟩ := k_lo z1 (by omega)
      show keyAt d1 (first + z1) ≤ _
      rw [hz4]
      by_cases hyi : y = i
      · rw [hyi, k_i]; exact hmax z2 hz3
      · rw [k_hi y (by omega)]
        exact hbd z2 y hz3 (by omega) hy2
    exact w2.2.2 (fun e => e.Filter ≤ keyAt d1 (first + y)) hP (first + x) (by omega)
      (by omega)

theorem heapSortPop_spec (first hi : Nat) : ∀ (i : Nat) (d : ByFilter), i + 1 ≤ hi →
    first + hi ≤ d.length → HeapFrom d first 0 (i + 1) →
    SortedOn d (first + (i + 1)) (first + hi) →
    (∀ x y, x < i + 1 → i + 1 ≤ y → y < hi → keyAt d (first + x) ≤ keyAt d (first + y)) →
    Within first (first + hi) d (heapSortPop first i d) ∧
      SortedOn (heapSortPop first i d) first (first + hi) := by
  intro i
  induction i with
  | zero =>
    intro d hi1 hb hh hs hbd
    rw [heapSortPop]
    obtain ⟨w, _, s, _⟩ := heapSortPop_step d first hi 0 hi1 hb hh hs hbd
    exact ⟨w, s⟩
  | succ i ih =>
    intro d hi1 hb hh hs hbd
    rw [heapSortPop]
    obtain ⟨w, h, s, bd⟩ := heapSortPop_step d first hi (i + 1) hi1 hb hh hs hbd
    obtain ⟨w2, s2⟩ := ih _ (by omega) (by rw [w.1]; exact hb) h s bd
    exact ⟨w.trans w2, s2⟩

theorem heapSort_spec (d : ByFilter) (a b : Nat) (hab : a < b) (hb : b ≤ d.length) :
    Within a b d (heapSort d a b) ∧ SortedOn (heapSort d a b) a b := by
  obtain ⟨m, rfl⟩ : ∃ m, b = a + (m + 1) := ⟨b - a - 1, by omega⟩
  unfold heapSort
  simp only [Nat.add_sub_cancel_left, Nat.add_sub_cancel]
  obtain ⟨w1, h1⟩ := heapSortBuild_spec (m + 1) a (m / 2) d hb
    (fun x c hx hc hcx => by omega)
  obtain ⟨w2, s2⟩ := heapSortPop_spec a (m + 1) m _ (le_refl _)
    (by rw [w1.1]; exact hb) h1
    (fun x y hx hxy hy => by omega) (fun x y hx hy1 hy2 => by omega)
  exact ⟨w1.trans w2, s2⟩

theorem sortedOn_join (r : ByFilter) (a mid b : Nat) (hl : SortedOn r a mid)
    (hr : SortedOn r (mid + 1) b)
    (h1 : ∀ x, a ≤ x → x < mid → keyAt r x ≤ keyAt r mid)
    (h2 : ∀ y, mid < y → y < b → keyAt r mid ≤ keyAt r y) : SortedOn r a b := by
  intro x y hx hxy hy
  by_cases hxm : x < mid
  · by_cases hym : y < mid
    · exact hl x y hx hxy hym
    · by_cases hye : y = mid
      · rw [hye]; exact h1 x hx hxm
      · exact le_trans (h1 x hx hxm) (h2 y (by omega) hy)
  · by_cases hxe : x = mid
    · by_cases hye : y = mid
      · rw [hxe, hye]
      · rw [hxe]; exact h2 y (by omega) hy
    · exact hr x y (by omega) hxy hy

theorem pdqsortLoop_spec : ∀ (fuel : Nat) (d : ByFilter) (a b limit : Nat) (wb wp : Bool),
    a ≤ b → b ≤ d.length → b - a < fuel →
    (0 < a → ∀ x, a ≤ x → x < b → keyAt d (a - 1) ≤ keyAt d x) →
    SortedWithin a b d (pdqsortLoop fuel d a b limit wb wp) := by
  intro fuel
  induction fuel with
  | zero => intro d a b limit wb wp _ _ hf _; omega
  | succ fuel ih =>
    intro d a b limit wb wp hab hb hf hpre
    rw [pdqsortLoop]
    dsimp only []
    by_cases h12 : b - a ≤ 12
    · rw [if_pos h12]
      exact insertionSort_spec d a b hb
    · rw [if_neg h12]
      by_cases hl0 : limit = 0
      · rw [if_pos hl0]
        exact heapSort_spec d a b (by omega) hb
      · rw [if_neg hl0]
        have hd1 : Within a b d (if ¬ wb = true then breakPatterns d a b else d) := by
          split
          · exact breakPatterns_within d a b hab hb
          · exact Within.refl _ _ _
        generalize (if ¬ wb = true then breakPatterns d a b else d) = d1 at hd1 ⊢
        generalize (if ¬ wb = true then limit - 1 else limit) = limit1
        have hb1 : b ≤ d1.length := by rw [hd1.1]; exact hb
        have hpr := choosePivot_range d1 a b (by omega)
        have hd2 : Within a b d (if (choosePivot d1 a b).2 = sortedHint.decreasingHint
            then reverseRange d1 a b else d1) := by
          split
          · exact hd1.trans (reverseRange_within d1 a b (by omega) hb1)
          · exact hd1
        generalize (if (choosePivot d1 a b).2 = sortedHint.decreasingHint
            then reverseRange d1 a b else d1) = d2 at hd2 ⊢
        have hpiv : a ≤ (if (choosePivot d1 a b).2 = sortedHint.decreasingHint
            then b - 1 - ((choosePivot d1 a b).1 - a) else (choosePivot d1 a b).1) ∧
            (if (choosePivot d1 a b).2 = sortedHint.decreasingHint
            then b - 1 - ((choosePivot d1 a b).1 - a) else (choosePivot d1 a b).1) < b := by
          split
          · omega
          · exact hpr
        generalize (if (choosePivot d1 a b).2 = sortedHint.decreasingHint
            then b - 1 - ((choosePivot d1 a b).1 - a) else (choosePivot d1 a b).1) = pivot
            at hpiv ⊢
        generalize (if (choosePivot d1 a b).2 = sortedHint.decreasingHint
            then sortedHint.increasingHint else (choosePivot d1 a b).2) = hint
        have hb2 : b ≤ d2.length := by rw [hd2.1]; exact hb
        have hpis := partialInsertionSort_spec d2 a b (by omega) hb2
          (leftBound_of_within hd2 hpre)
        split
        · rename_i hc
          exact And.intro (hd2.trans hpis.1) (hpis.2 hc.2)
        · have hd3 : Within a b d (if wb = true ∧ wp = true ∧ hint = sortedHint.increasingHint
              then (partialInsertionSort d2 a b).1 else d2) := by
            split
            · exact hd2.trans hpis.1
            · exact hd2
          generalize (if wb = true ∧ wp = true ∧ hint = sortedHint.increasingHint
              then (partialInsertionSort d2 a b).1 else d2) = d3 at hd3 ⊢
          have hb3 : b ≤ d3.length := by rw [hd3.1]; exact hb
          have hpre3 := leftBound_of_within hd3 hpre
          split
          · rename_i hc
            obtain ⟨ha0, hnl⟩ := hc
            rw [not_Less_iff] at hnl
            obtain ⟨e1, e2, e3, e4, e5⟩ := partitionEqual_spec d3 a b pivot hpiv.1 hpiv.2 hb3
              (fun x h1 h2 => le_trans hnl (hpre3 ha0 x h1 h2))
            generalize partitionEqual d3 a b pivot = pe at e1 e2 e3 e4 e5 ⊢
            obtain ⟨r1, r2⟩ := ih pe.1 pe.2 b limit1 wb wp e3 (by rw [e1.1]; exact hb3)
              (by omega)
              (fun _ x h1 h2 => by
                rw [e4 (pe.2 - 1) (by omega) (by omega)]
                exact le_of_lt (e5 x h1 h2))
            generalize pdqsortLoop fuel pe.1 pe.2 b limit1 wb wp = r at r1 r2 ⊢
            refine And.intro (hd3.trans (e1.trans (r1.mono (by omega) (le_refl _)))) ?_
            intro x y hx hxy hy
            have hgt : ∀ z, pe.2 ≤ z → z < b → keyAt d3 pivot < keyAt r z :=
              r1.2.2 (fun e => keyAt d3 pivot < e.Filter) e5
            by_cases hxm : x < pe.2
            · rw [r1.key x (by omega), e4 x hx hxm]
              by_cases hym : y < pe.2
              · rw [r1.key y (by omega), e4 y (by omega) hym]
              · exact le_of_lt (hgt y (by omega) hy)
            · exact r2 x y (by omega) hxy hy
          · obtain ⟨p1, p2, p3, p4, p5⟩ := partition_spec d3 a b pivot hpiv.1 hpiv.2 hb3
            generalize partition d3 a b pivot = pt at p1 p2 p3 p4 p5 ⊢
            have hb4 : b ≤ pt.1.length := by rw [p1.1]; exact hb3
            have hpre4 := leftBound_of_within p1 hpre3
            split
            · -- the left part first, then the loop goes on with the right part
              obtain ⟨l1, l2⟩ := ih pt.1 a pt.2.1 limit1 true true p2 (by omega) (by omega)
                (fun ha x h1 h2 => hpre4 ha x h1 (by omega))
              generalize pdqsortLoop fuel pt.1 a pt.2.1 limit1 true true = q at l1 l2 ⊢
              have kq : ∀ z, pt.2.1 ≤ z → keyAt q z = keyAt pt.1 z :=
                fun z hz => l1.key z (by omega)
              obtain ⟨r1, r2⟩ := ih q (pt.2.1 + 1) b limit1
                (decide (pt.2.1 - a ≥ (b - a) / 8)) pt.2.2 (by omega)
                (by rw [l1.1]; exact hb4) (by omega)
                (fun _ x h1 h2 => by
                  rw [Nat.add_sub_cancel, kq _ (le_refl _), kq x (by omega)]
                  exact p5 x (by omega) h2)
              generalize pdqsortLoop fuel q (pt.2.1 + 1) b limit1
                (decide (pt.2.1 - a ≥ (b - a) / 8)) pt.2.2 = r at r1 r2 ⊢
              have kr : ∀ z, z ≤ pt.2.1 → keyAt r z = keyAt q z :=
                fun z hz => r1.key z (by omega)
              refine And.intro (hd3.trans (p1.trans ((l1.mono (le_refl _) (by omega)).trans
                (r1.mono (by omega) (le_refl _))))) ?_
              apply sortedOn_join r a pt.2.1 b
              · intro x y hx hxy hy
                rw [kr x (by omega), kr y (by omega)]
                exact l2 x y hx hxy hy
              · exact r2
              · intro x hx1 hx2
                rw [kr x (by omega), kr _ (le_refl _), kq _ (le_refl _)]
                exact l1.2.2 (fun e => e.Filter ≤ keyAt pt.1 pt.2.1) p4 x hx1 hx2
              · intro y hy1 hy2
                rw [kr _ (le_refl _), kq _ (le_refl _)]
                exact r1.2.2 (fun e => keyAt pt.1 pt.2.1 ≤ e.Filter)
                  (fun z h1 h2 => by
                    show keyAt pt.1 pt.2.1 ≤ keyAt q z
                    rw [kq z (by omega)]
                    exact p5 z (by omega) h2) y (by omega) hy2
            · -- the right part first, then the loop goes on with the left part
              obtain ⟨l1, l2⟩ := ih pt.1 (pt.2.1 + 1) b limit1 true true (by omega) hb4
                (by omega)
                (fun _ x h1 h2 => by
                  rw [Nat.add_sub_cancel]
                  exact p5 x (by omega) h2)
              generalize pdqsortLoop fuel pt.1 (pt.2.1 + 1) b limit1 true true = q at l1 l2 ⊢
              have kq : ∀ z, z ≤ pt.2.1 → keyAt q z = keyAt pt.1 z :=
                fun z hz => l1.key z (by omega)
              obtain ⟨r1, r2⟩ := ih q a pt.2.1 limit1
                (decide (b - pt.2.1 ≥ (b - a) / 8)) pt.2.2 p2
                (by rw [l1.1]; omega) (by omega)
                (fun ha x h1 h2 => by
                  rw [kq _ (by omega), kq x (by omega)]
                  exact hpre4 ha x h1 (by omega))
              generalize pdqsortLoop fuel q a pt.2.1 limit1
                (decide (b - pt.2.1 ≥ (b - a) / 8)) pt.2.2 = r at r1 r2 ⊢
              have kr : ∀ z, pt.2.1 ≤ z → keyAt r z = keyAt q z :=
                fun z hz => r1.key z (by omega)
              refine And.intro (hd3.trans (p1.trans ((l1.mono (by omega) (le_refl _)).trans
                (r1.mono (le_refl _) (by omega))))) ?_
              apply sortedOn_join r a pt.2.1 b
              · exact r2
              · intro x y hx hxy hy
                rw [kr x (by omega), kr y (by omega)]
                exact l2 x y hx hxy hy
              · intro x hx1 hx2
                rw [kr _ (le_refl _), kq _ (le_refl _)]
                exact r1.2.2 (fun e => e.Filter ≤ keyAt pt.1 pt.2.1)
                  (fun z h1 h2 => by
                    show keyAt q z ≤ keyAt pt.1 pt.2.1
                    rw [kq z (by omega)]
                    exact p4 z h1 h2) x hx1 hx2
              · intro y hy1 hy2
                rw [kr _ (le_refl _), kr y (by omega), kq _ (le_refl _)]
                exact l1.2.2 (fun e => keyAt pt.1 pt.2.1 ≤ e.Filter)
                  (fun z h1 h2 => p5 z (by omega) h2) y (by omega) hy2

theorem sortSort_sorted (d : ByFilter) : SortedOn (sortSort d) 0 d.length := by
  unfold sortSort ByFilter.Len
  simp only []
  split
  · intro x y hx hxy hy
    have : x = y := by omega
    rw [this]
  · unfold pdqsort
    exact (pdqsortLoop_spec _ d 0 d.length _ true true (Nat.zero_le _) (le_refl _)
      (by omega) (fun h => by omega)).2

/-! ## C7: Sort rearranges the entries into ascending order of the keys -/

theorem setFilter_withoutFilter (column : String) (e : Settings) :
    (setFilter column e).withoutFilter = e.withoutFilter := by
  unfold setFilter
  split_ifs <;> rfl

/-- C7: for every Proxy and every column name, the entries after `Sort(column)` are a
rearrangement of the entries before the call with their sort keys set by the switch (so,
sort keys apart, a rearrangement of the entries before the call: none lost, none
duplicated), and they are in ascending order of the sort key under string comparison: for
all positions i < j the key at j is not strictly less than the key at i. -/
theorem sort_is_ordered_rearrangement (p : Proxy) (column : String) :
    (p.Sort column).Entries.Perm (p.Entries.map (setFilter column)) ∧
    ((p.Sort column).Entries.map Settings.withoutFilter).Perm
      (p.Entries.map Settings.withoutFilter) ∧
    (p.Sort column).Entries.Pairwise (fun x y => ¬ y.Filter < x.Filter) := by
  have hp : (p.Sort column).Entries.Perm (p.Entries.map (setFilter column)) :=
    sortSort_perm _
  refine ⟨hp, ?_, ?_⟩
  · have h := hp.map Settings.withoutFilter
    rw [List.map_map] at h
    have e : Settings.withoutFilter ∘ setFilter column = Settings.withoutFilter :=
      funext (setFilter_withoutFilter column)
    rw [e] at h
    exact h
  · have hs := sortSort_sorted (p.Entries.map (setFilter column))
    have hl : (sortSort (p.Entries.map (setFilter column))).length
        = (p.Entries.map (setFilter column)).length := (sortSort_perm _).length_eq
    show (sortSort (p.Entries.map (setFilter column))).Pairwise _
    rw [List.pairwise_iff_getElem]
    intro i j hi hj hij
    have h := hs i j (Nat.zero_le _) (le_of_lt hij) (by rw [← hl]; exact hj)
    unfold keyAt at h
    rw [at_eq_getElem _ i hi, at_eq_getElem _ j hj] at h
    exact not_lt.mpr h

end proxylist
